import Mathlib

/-!
Verification development for the envelope-measurement core of the
gen_adldata instrument compiler (src/utils/gen_adldata/measurer.cpp and
gen_adldata.cc).

Modelling conventions:

* Machine integers are modelled by Nat/Int; 16-bit audio samples by Int.
* C doubles are modelled by rationals.  All double operations that the
  measured claims depend on (+, -, *, /, comparisons against literal
  constants, truncating casts) are exact on the values that occur, so the
  rational model is faithful there; the transcendental helpers (cos inside
  the Hann window, sqrt inside the RMS, exp inside the frequency formula)
  are kept abstract: the analysis loop is parametrised by the RMS value it
  observes, and the frequency encoder takes the already-computed hertz
  value as input.
* The data types declared in measurer.h / progs_cache.h are not part of
  src/; where they are needed they are modelled from the spec and marked
  as such.

The file is organised as: all definitions first, then all theorems.
-/

set_option maxRecDepth 8000

namespace AdlMeasure

/-! ## AudioHistory: the fixed-capacity ring buffer (measurer.cpp lines 74-111)

The C++ class stores samples in a `2 * capacity` array, double-writing each
sample at `index` and `index + capacity` so the most recent `length` samples
are always available as one contiguous slice starting at
`index + capacity - length`.  The backing array is modelled as a total
function from position to value; `new T[2 * capacity]()` value-initialises,
modelled by the `default` element. -/

structure AudioHistory (α : Type) where
  m_data : ℕ → α
  m_index : ℕ
  m_length : ℕ
  m_capacity : ℕ

namespace AudioHistory

def size {α : Type} (h : AudioHistory α) : ℕ := h.m_length

def capacity {α : Type} (h : AudioHistory α) : ℕ := h.m_capacity

/-- The contiguous view returned by data(): `length` elements starting at
position `index + capacity - length`. -/
def view {α : Type} (h : AudioHistory α) : List α :=
  (List.range h.m_length).map (fun j => h.m_data (h.m_index + h.m_capacity - h.m_length + j))

/-- reset(capacity): reallocate a zeroed backing array, clear index and length. -/
def reset {α : Type} (_h : AudioHistory α) [Inhabited α] (cap : ℕ) : AudioHistory α :=
  { m_data := fun _ => default
    m_index := 0
    m_length := 0
    m_capacity := cap }

/-- A freshly constructed buffer after reset(cap). -/
def fresh (α : Type) [Inhabited α] (cap : ℕ) : AudioHistory α :=
  { m_data := fun _ => default
    m_index := 0
    m_length := 0
    m_capacity := cap }

/-- add(item): write the sample at both `index` and `index + capacity`,
advance the index cyclically, and saturate the length at the capacity. -/
def add {α : Type} (h : AudioHistory α) (item : α) : AudioHistory α :=
  { m_data := fun k =>
      if k = h.m_index ∨ k = h.m_index + h.m_capacity then item else h.m_data k
    m_index := if h.m_index + 1 ≠ h.m_capacity then h.m_index + 1 else 0
    m_length := if h.m_length + 1 < h.m_capacity then h.m_length + 1 else h.m_capacity
    m_capacity := h.m_capacity }

/-- Append a whole list of samples, one `add` at a time. -/
def addAll {α : Type} (h : AudioHistory α) (xs : List α) : AudioHistory α :=
  xs.foldl add h

end AudioHistory

/-! ## Byte-level serialisation helpers

The helpers toUint16LE / toUint32LE / toSint32LE live in
file_formats/common.h, which is not part of src/.  They are modelled from
the spec: the cache formats use little-endian fixed-width fields, signed
values in two's complement.  A cache file is modelled as a list of byte
values (each < 256 when produced by the writers). -/

/-- Little-endian bytes of the low 32 bits of a signed value, as written by
SaveCacheX (measurer.cpp lines 1140-1150: (kv >> 8k) & 0xFF on the two's
complement representation). -/
def le32 (z : ℤ) : List ℕ :=
  let n : ℕ := (z % 4294967296).toNat
  [n % 256, n / 256 % 256, n / 65536 % 256, n / 16777216 % 256]

/-- Little-endian bytes of the low 32 bits of an unsigned counter, as
written by SaveCacheX for the record count (lines 1117-1123). -/
def le32n (n : ℕ) : List ℕ :=
  [n % 256, n / 256 % 256, n / 65536 % 256, n / 16777216 % 256]

/-- Little-endian bytes of the low 16 bits of a signed 64-bit value, as
written by SaveCacheX for the millisecond fields (lines 1133-1136). -/
def le16 (z : ℤ) : List ℕ :=
  let n : ℕ := (z % 65536).toNat
  [n % 256, n / 256]

/-- Modelled from the spec: toUint32LE reassembles 4 little-endian bytes
into an unsigned 32-bit value. -/
def toUint32LE (b0 b1 b2 b3 : ℕ) : ℕ := b0 + 256 * b1 + 65536 * b2 + 16777216 * b3

/-- Modelled from the spec: toSint32LE reassembles 4 little-endian bytes
into a signed 32-bit value (two's complement). -/
def toSint32LE (b0 b1 b2 b3 : ℕ) : ℤ :=
  let n := toUint32LE b0 b1 b2 b3
  if n < 2147483648 then (n : ℤ) else (n : ℤ) - 4294967296

/-- Modelled from the spec: toUint16LE reassembles 2 little-endian bytes
into an unsigned 16-bit value. -/
def toUint16LE (b0 b1 : ℕ) : ℕ := b0 + 256 * b1

/-- Unsigned little-endian value of a byte list (first byte least
significant). -/
def leVal (bs : List ℕ) : ℕ := bs.foldr (fun b acc => b + 256 * acc) 0

/-- Little-endian bytes of the low 64 bits of an unsigned value. -/
def le64n (n : ℕ) : List ℕ :=
  [n % 256, n / 256 % 256, n / 65536 % 256, n / 16777216 % 256,
   n / 4294967296 % 256, n / 1099511627776 % 256,
   n / 281474976710656 % 256, n / 72057594037927936 % 256]

/-- Little-endian bytes of the low 64 bits of a signed value (two's
complement), as written for int64_t fields of the legacy cache format. -/
def le64 (z : ℤ) : List ℕ := le64n ((z % 18446744073709551616).toNat)

/-- Signed reassembly of 8 little-endian bytes (two's complement). -/
def sVal64 (bs : List ℕ) : ℤ :=
  let n := leVal bs
  if n < 9223372036854775808 then (n : ℤ) else (n : ℤ) - 18446744073709551616

/-- One fread of n bytes from the modelled file: returns the bytes actually
obtained (a short read yields what remains), a success flag (all n bytes
obtained), and the remaining file (a short read consumes everything). -/
def fread (n : ℕ) (l : List ℕ) : List ℕ × Bool × List ℕ :=
  (l.take n, decide (n ≤ l.length), l.drop n)

/-! ## Association-list model of the std::map caches

std::map::insert does not overwrite an existing key.  Iteration order of the
C++ map is its key order; the model keeps entries in insertion order and
treats the cache purely as a key-to-value mapping, which is what the claims
are about. -/

def alFind {κ ν : Type} [DecidableEq κ] (m : List (κ × ν)) (k : κ) : Option ν :=
  (m.find? (fun p => decide (p.1 = k))).map Prod.snd

def alInsert {κ ν : Type} [DecidableEq κ] (m : List (κ × ν)) (k : κ) (v : ν) :
    List (κ × ν) :=
  if (alFind m k).isSome then m else m ++ [(k, v)]

/-! ## The compact (V2) cache format: SaveCacheX / LoadCacheX
(measurer.cpp lines 1020-1154) -/

/-- Modelled from the spec: OperatorsKey is an ordered tuple of 9 signed
integers (4 operator indices, feedback-connection, 2 note offsets,
percussion key, instrument flags, detune); modelled as a list of integers,
of length 9 in every well-formed key. -/
abbrev OperatorsKey := List ℤ

/-- The DurationInfo fields that the caches store (attack ms, release ms,
silence flag).  The remaining DurationInfo fields are not serialised (and
are left unset by the loaders in the source). -/
structure CacheRec where
  ms_sound_kon : ℤ
  ms_sound_koff : ℤ
  nosound : Bool
deriving DecidableEq

/-- The 32-byte magic "ADLMIDI-DURATION-CACHE-FILE-V2.0" (no terminator). -/
def magicX : List ℕ :=
  [65, 68, 76, 77, 73, 68, 73, 45,
   68, 85, 82, 65, 84, 73, 79, 78, 45,
   67, 65, 67, 72, 69, 45,
   70, 73, 76, 69, 45,
   86, 50, 46, 48]

/-- The 32-byte magic "ADLMIDI-DURATION-CACHE-FILE-V1.0" (no terminator). -/
def magicV1 : List ℕ :=
  [65, 68, 76, 77, 73, 68, 73, 45,
   68, 85, 82, 65, 84, 73, 79, 78, 45,
   67, 65, 67, 72, 69, 45,
   70, 73, 76, 69, 45,
   86, 49, 46, 48]

/-- One compact-format record: 9 little-endian 32-bit key integers, then
attack ms and release ms truncated to 16 bits, then the silence byte
(SaveCacheX lines 1126-1152). -/
def encRecX (k : OperatorsKey) (v : CacheRec) : List ℕ :=
  (k.map le32).flatten ++
    (le16 v.ms_sound_kon ++ le16 v.ms_sound_koff ++ [if v.nosound then 1 else 0])

/-- SaveCacheX: magic, 4-byte record count, then the records in map order. -/
def saveCacheX (m : List (OperatorsKey × CacheRec)) : List ℕ :=
  magicX ++ le32n m.length ++ (m.map (fun p => encRecX p.1 p.2)).flatten

/-- Read one 4-byte signed little-endian integer (LoadCacheX lines
1072-1085). -/
def readInt32 (l : List ℕ) : Option (ℤ × List ℕ) :=
  match l with
  | b0 :: b1 :: b2 :: b3 :: rest => some (toSint32LE b0 b1 b2 b3, rest)
  | _ => none

/-- Read n consecutive 4-byte signed integers (the key loop of LoadCacheX). -/
def readKeyInts : ℕ → List ℕ → Option (List ℤ × List ℕ)
  | 0, l => some ([], l)
  | n + 1, l =>
    match readInt32 l with
    | some (z, rest) =>
      match readKeyInts n rest with
      | some (zs, rest2) => some (z :: zs, rest2)
      | none => none
    | none => none

/-- Parse one compact-format record: the 9 key integers, then the 5-byte
duration block (LoadCacheX lines 1067-1099).  Any short read aborts the
whole load (the source closes the file and returns). -/
def parseRecX (l : List ℕ) : Option ((OperatorsKey × CacheRec) × List ℕ) :=
  match readKeyInts 9 l with
  | some (k, rest) =>
    match rest with
    | d0 :: d1 :: d2 :: d3 :: d4 :: rest2 =>
      some ((k, ⟨(toUint16LE d0 d1 : ℤ), (toUint16LE d2 d3 : ℤ), decide (d4 = 1)⟩), rest2)
    | _ => none
  | none => none

/-- The LoadCacheX record loop: runs while records remain according to the
stored count; a malformed record returns with the entries inserted so far. -/
def loadLoopX : ℕ → List ℕ → List (OperatorsKey × CacheRec) →
    List (OperatorsKey × CacheRec)
  | 0, _, acc => acc
  | n + 1, l, acc =>
    match parseRecX l with
    | some ((k, v), rest) => loadLoopX n rest (alInsert acc k v)
    | none => acc

/-- LoadCacheX (lines 1020-1109): absent file, short magic, wrong magic or
short count field give an empty cache; otherwise the record loop runs. -/
def loadCacheX (file : Option (List ℕ)) : List (OperatorsKey × CacheRec) :=
  match file with
  | none => []
  | some l =>
    let (magicGot, ok, rest) := fread 32 l
    if !ok then []
    else if magicGot ≠ magicX then []
    else
      match rest with
      | c0 :: c1 :: c2 :: c3 :: rest2 => loadLoopX (toUint32LE c0 c1 c2 c3) rest2 []
      | _ => []

/-! ## The legacy (V1) cache format: LoadCache (measurer.cpp lines 785-959)

The key type ins and the instrument tables insdatatab / instab are declared
in progs_cache.h, which is not part of src/.  They are modelled from the
spec: insdata is an 11-byte raw operator register block plus a finetune
byte and a difference flag; ins carries two instrument-table indices, the
two raw blocks, note number, 4-op flags and the second-voice detune.
Fields of ins that the cache file does not store are zero-initialised by
LoadCache (memset) and are omitted from the model.  insdatatab is modelled
as the list of its (insdata, instrument-number) entries in iteration
order; instab as the list of its ins keys. -/

structure InsData where
  data : List ℕ
  finetune : ℕ
  diff : Bool
deriving DecidableEq

def zeroInsData : InsData := ⟨List.replicate 11 0, 0, false⟩

structure InsKey where
  insno1 : ℕ
  insno2 : ℕ
  instCache1 : InsData
  instCache2 : InsData
  notenum : ℕ
  real4op : Bool
  pseudo4op : Bool
  voice2_fine_tune : ℚ
deriving DecidableEq

/-- One raw legacy cache-file record as laid out on disk (98 bytes in
total); rawness is kept where the file stores a byte that the loader
reinterprets (bool bytes are nonzero-is-true). -/
structure LegacyFileRec where
  insno1 : ℕ
  insno2 : ℕ
  cache1 : InsData
  cache2 : InsData
  notenum : ℕ
  real4opB : ℕ
  pseudo4opB : ℕ
  voice2detune : ℤ
  found_f0B : ℕ
  found_f1B : ℕ
  id_f0 : InsData
  id_f1 : InsData
  kon : ℤ
  koff : ℤ
  nosoundB : ℕ

def encInsData (d : InsData) : List ℕ :=
  d.data ++ [d.finetune, if d.diff then 1 else 0]

/-- The on-disk layout of a legacy record, in the exact field order that
LoadCache reads (lines 837-868 and 944-949). -/
def encRecLegacy (r : LegacyFileRec) : List ℕ :=
  le64n r.insno1 ++ le64n r.insno2 ++
  encInsData r.cache1 ++ encInsData r.cache2 ++
  [r.notenum, r.real4opB, r.pseudo4opB] ++
  le64 r.voice2detune ++
  [r.found_f0B, r.found_f1B] ++
  encInsData r.id_f0 ++ encInsData r.id_f1 ++
  le64 r.kon ++ le64 r.koff ++ [r.nosoundB]

/-- State of the first revalidation scan (lines 882-898) over insdatatab. -/
structure Scan1St where
  id0 : InsData
  id1 : InsData
  found0 : Bool
  found1 : Bool
  insNo0 : ℕ
  insNo1 : ℕ

/-- First revalidation scan: look the two stored instrument numbers up in
the current insdatatab and compare the table content against the raw blocks
stored in the file, with the source's early-exit structure. -/
def scan1 (insno1 insno2 : ℕ) (id_f0 id_f1 : InsData) :
    List (InsData × ℕ) → Scan1St → Scan1St
  | [], st => st
  | j :: rest, st =>
    let st1 := if j.2 = insno1 then
        { st with id0 := j.1, found0 := decide (j.1 = id_f0), insNo0 := insno1 }
      else st
    if j.2 = insno1 ∧ st1.found1 then st1
    else
      let st2 := if j.2 = insno2 then
          { st1 with id1 := j.1, found1 := decide (j.1 = id_f1), insNo1 := insno2 }
        else st1
      if j.2 = insno2 ∧ st2.found0 then st2
      else scan1 insno1 insno2 id_f0 id_f1 rest st2

/-- Second revalidation scan (lines 903-925): when the direct index check
failed, search insdatatab for entries equal to the raw blocks stored in the
file; state is (found0, found1, insNo0, insNo1), result adds isMatches. -/
def scan2 (found_f0 found_f1 : Bool) (id_f0 id_f1 : InsData) :
    List (InsData × ℕ) → Bool × Bool × ℕ × ℕ → Bool × Bool × ℕ × ℕ × Bool
  | [], (f0, f1, n0, n1) => (f0, f1, n0, n1, false)
  | j :: rest, (f0, f1, n0, n1) =>
    let (f0', n0') := if found_f0 ∧ j.1 = id_f0 then (true, j.2) else (f0, n0)
    let (f1', n1') := if found_f1 ∧ j.1 = id_f1 then (true, j.2) else (f1, n1)
    if f0' ∧ ¬found_f1 then (f0', f1', n0', n1', true)
    else if f0' ∧ f1' then (f0', f1', n0', n1', true)
    else scan2 found_f0 found_f1 id_f0 id_f1 rest (f0', f1', n0', n1')

/-- The whole revalidation block (lines 880-941): returns the key to store
under when the record matches the current instrument tables (with the
stored indices replaced by the revalidated ones), and none otherwise. -/
def legacyMatch (idt : List (InsData × ℕ)) (itab : List InsKey) (inst0 : InsKey)
    (id_f0 id_f1 : InsData) (found_f0 found_f1 : Bool) : Option InsKey :=
  if found_f0 ∨ found_f1 then
    let s1 := scan1 inst0.insno1 inst0.insno2 id_f0 id_f1 idt
      ⟨zeroInsData, zeroInsData, false, false, 0, 0⟩
    let r : Bool × Bool × ℕ × ℕ × Bool :=
      if s1.found0 ≠ found_f0 ∨ s1.found1 ≠ found_f1 then
        scan2 found_f0 found_f1 id_f0 id_f1 idt (s1.found0, s1.found1, s1.insNo0, s1.insNo1)
      else (s1.found0, s1.found1, s1.insNo0, s1.insNo1, true)
    if r.2.2.2.2 then
      let inst := { inst0 with insno1 := r.2.2.1, insno2 := r.2.2.2.1 }
      if inst ∈ itab then some inst else none
    else none
  else none

/-- One break-guarded fread of an 8-byte unsigned value. -/
def readU64 (l : List ℕ) : Option (ℕ × List ℕ) :=
  let (b, ok, l') := fread 8 l
  if !ok then none else some (leVal b, l')

/-- One break-guarded fread of an 8-byte signed value. -/
def readS64 (l : List ℕ) : Option (ℤ × List ℕ) :=
  let (b, ok, l') := fread 8 l
  if !ok then none else some (sVal64 b, l')

/-- One break-guarded fread of a single byte. -/
def readByte (l : List ℕ) : Option (ℕ × List ℕ) :=
  let (b, ok, l') := fread 1 l
  if !ok then none else some (b.headI, l')

/-- An 11-byte data block, a finetune byte and a bool byte, each fread
break-guarded (the layout of an insdata block on disk). -/
def readBlock (l : List ℕ) : Option (InsData × List ℕ) :=
  match fread 11 l with
  | (_, false, _) => none
  | (d, true, l1) =>
    match readByte l1 with
    | none => none
    | some (f, l2) =>
      match readByte l2 with
      | none => none
      | some (df, l3) => some (⟨d, f, decide (df ≠ 0)⟩, l3)

/-- The same 13-byte block inside the id_f loop (lines 870-878), where a
short read breaks only out of that loop: the partially filled raw block
stays in place (fread writes the bytes it did obtain) and processing
continues.  Returns the block, whether it was read completely, and the
remaining file. -/
def readBlockSoft (l : List ℕ) : InsData × Bool × List ℕ :=
  match fread 11 l with
  | (d, false, l1) => (⟨d ++ zeroInsData.data.drop d.length, 0, false⟩, false, l1)
  | (d, true, l1) =>
    match fread 1 l1 with
    | (_, false, l2) => (⟨d, 0, false⟩, false, l2)
    | (f, true, l2) =>
      match fread 1 l2 with
      | (_, false, l3) => (⟨d, f.headI, false⟩, false, l3)
      | (df, true, l3) => (⟨d, f.headI, decide (df.headI ≠ 0)⟩, true, l3)

/-- The two-iteration id_f loop: when the first block stops short, the
second is never read. -/
def readIdF (l : List ℕ) : InsData × InsData × List ℕ :=
  match readBlockSoft l with
  | (b0, false, l') => (b0, zeroInsData, l')
  | (b0, true, l') =>
    let (b1, _, l'') := readBlockSoft l'
    (b0, b1, l'')

/-- Parse one legacy record (the body of the while loop, lines 817-952).
On success, gives the remaining file together with the entry to insert when
the record revalidates (none when it parses but does not match the current
tables); a short read in any break-guarded fread gives none and the outer
loop stops. -/
def parseRecLegacy (idt : List (InsData × ℕ)) (itab : List InsKey) (l : List ℕ) :
    Option (Option (InsKey × CacheRec) × List ℕ) :=
  match readU64 l with
  | none => none
  | some (insno1, l1) =>
  match readU64 l1 with
  | none => none
  | some (insno2, l2) =>
  match readBlock l2 with
  | none => none
  | some (cache1, l3) =>
  match readBlock l3 with
  | none => none
  | some (cache2, l4) =>
  match readByte l4 with
  | none => none
  | some (nn, l5) =>
  match readByte l5 with
  | none => none
  | some (r4, l6) =>
  match readByte l6 with
  | none => none
  | some (p4, l7) =>
  match readS64 l7 with
  | none => none
  | some (vdet, l8) =>
  match fread 2 l8 with
  | (_, false, _) => none
  | (ff, true, l9) =>
  match readIdF l9 with
  | (idf0, idf1, l10) =>
  let inst0 : InsKey :=
    { insno1 := insno1
      insno2 := insno2
      instCache1 := cache1
      instCache2 := cache2
      notenum := nn
      real4op := decide (r4 ≠ 0)
      pseudo4op := decide (p4 ≠ 0)
      voice2_fine_tune := (vdet : ℚ) / 1000000 }
  let matched := legacyMatch idt itab inst0 idf0 idf1
    (decide (ff.headI ≠ 0)) (decide ((ff.drop 1).headI ≠ 0))
  match readS64 l10 with
  | none => none
  | some (kon, l11) =>
  match readS64 l11 with
  | none => none
  | some (koff, l12) =>
  match readByte l12 with
  | none => none
  | some (ns, l13) =>
  match matched with
  | some inst => some (some (inst, ⟨kon, koff, decide (ns ≠ 0)⟩), l13)
  | none => some (none, l13)

/-- The LoadCache record loop (while !feof): stops at the first record that
fails to parse, keeping what was inserted so far.  The fuel starts at one
more than the file length, which dominates the iteration count since every
successful record parse consumes 98 bytes. -/
def loadLoopLegacy (idt : List (InsData × ℕ)) (itab : List InsKey) :
    ℕ → List ℕ → List (InsKey × CacheRec) → List (InsKey × CacheRec)
  | 0, _, acc => acc
  | n + 1, l, acc =>
    match parseRecLegacy idt itab l with
    | some (some (k, v), rest) => loadLoopLegacy idt itab n rest (alInsert acc k v)
    | some (none, rest) => loadLoopLegacy idt itab n rest acc
    | none => acc

/-- LoadCache (lines 785-959): absent file, short magic or wrong magic give
an empty cache; otherwise the record loop runs until a record fails to
parse. -/
def loadCache (idt : List (InsData × ℕ)) (itab : List InsKey)
    (file : Option (List ℕ)) : List (InsKey × CacheRec) :=
  match file with
  | none => []
  | some l =>
    let (magicGot, ok, rest) := fread 32 l
    if !ok then []
    else if magicGot ≠ magicV1 then []
    else loadLoopLegacy idt itab (rest.length + 1) rest []

/-- The InsKey a legacy record decodes to before revalidation (the fields
LoadCache fills in from the file on lines 837-865). -/
def decodeInst (r : LegacyFileRec) : InsKey :=
  { insno1 := r.insno1
    insno2 := r.insno2
    instCache1 := r.cache1
    instCache2 := r.cache2
    notenum := r.notenum
    real4op := decide (r.real4opB ≠ 0)
    pseudo4op := decide (r.pseudo4opB ≠ 0)
    voice2_fine_tune := (r.voice2detune : ℚ) / 1000000 }

/-- What one fully parsed legacy record contributes: the entry to insert
when revalidation succeeds, nothing otherwise. -/
def legacyOutcome (idt : List (InsData × ℕ)) (itab : List InsKey)
    (r : LegacyFileRec) : Option (InsKey × CacheRec) :=
  (legacyMatch idt itab (decodeInst r) r.id_f0 r.id_f1
      (decide (r.found_f0B ≠ 0)) (decide (r.found_f1B ≠ 0))).map
    fun inst => (inst, ⟨r.kon, r.koff, decide (r.nosoundB ≠ 0)⟩)

/-- Accumulate the contributions of a run of legacy records in file order. -/
def legacyFold (idt : List (InsData × ℕ)) (itab : List InsKey)
    (rs : List LegacyFileRec) (acc : List (InsKey × CacheRec)) :
    List (InsKey × CacheRec) :=
  rs.foldl (fun a r =>
    match legacyOutcome idt itab r with
    | some (k, v) => alInsert a k v
    | none => a) acc

/-- Well-formedness of one compact-format cache entry for exact round-trip:
the key has its 9 components in signed 32-bit range and the millisecond
fields are in unsigned 16-bit range. -/
abbrev wfEntryX (p : OperatorsKey × CacheRec) : Prop :=
  p.1.length = 9 ∧ (∀ z ∈ p.1, -2147483648 ≤ z ∧ z < 2147483648) ∧
  0 ≤ p.2.ms_sound_kon ∧ p.2.ms_sound_kon < 65536 ∧
  0 ≤ p.2.ms_sound_koff ∧ p.2.ms_sound_koff < 65536

/-- Well-formedness of a legacy file record: the raw operator blocks have
their 11 data bytes and the multi-byte integer fields are in range. -/
abbrev wfRecLegacy (r : LegacyFileRec) : Prop :=
  r.cache1.data.length = 11 ∧ r.cache2.data.length = 11 ∧
  r.id_f0.data.length = 11 ∧ r.id_f1.data.length = 11 ∧
  r.insno1 < 18446744073709551616 ∧ r.insno2 < 18446744073709551616 ∧
  -9223372036854775808 ≤ r.voice2detune ∧ r.voice2detune < 9223372036854775808 ∧
  -9223372036854775808 ≤ r.kon ∧ r.kon < 9223372036854775808 ∧
  -9223372036854775808 ≤ r.koff ∧ r.koff < 9223372036854775808

/-- A concrete compact-format cache entry whose attack field is negative:
it is below 65536 but does not survive the 16-bit truncation. -/
def exKeyX : OperatorsKey := [0, 0, 0, 0, 0, 0, 0, 0, 0]

def exMapNeg : List (OperatorsKey × CacheRec) := [(exKeyX, ⟨-1, 0, false⟩)]

def exMapPos : List (OperatorsKey × CacheRec) := [(exKeyX, ⟨6006, 40000, true⟩)]

/-! ## TinySynth::noteOn frequency encoding (measurer.cpp lines 298-323)

The per-voice computation is: hertz = 172.00093 * exp(0.057762265 *
(playedNote + noteOffset)), clamp to 131071 with a warning, start the
block/fraction word at 0x2000 (key-on bit plus block 0), halve hertz while
it is at least 1023.5 adding 0x400 per halving, then add the rounded
fraction.  The exponential is transcendental and is not re-computed here:
the encoder takes the already-computed hertz value (a double, modelled as a
rational on which the clamp, comparisons, halvings and rounding are exact)
as its input, covering every value the formula can produce. -/

/-- The clamp (lines 304-310): hertz above 131071 is replaced by 131071. -/
def noteOnClamp (hz : ℚ) : ℚ := if hz > 131071 then 131071 else hz

/-- The halving loop (lines 312-316): while hz is at least 1023.5, halve it
and add 0x400 to the block/fraction word; the third component counts the
halvings performed. -/
def hzHalve (hz : ℚ) (x : ℕ) (count : ℕ) : ℚ × ℕ × ℕ :=
  if h : 1023.5 ≤ hz then hzHalve (hz / 2) (x + 1024) (count + 1)
  else (hz, x, count)
termination_by (⌈hz⌉).toNat
decreasing_by
  have h2 : hz / 2 ≤ hz - 1 := by linarith
  have h3 : ⌈hz / 2⌉ ≤ ⌈hz - 1⌉ := Int.ceil_mono h2
  have h4 : ⌈hz - (1 : ℚ)⌉ = ⌈hz⌉ - 1 := by
    have := Int.ceil_sub_int hz (1 : ℤ)
    simpa using this
  have h5 : (1024 : ℤ) ≤ ⌈hz⌉ := by
    have hm := Int.ceil_mono h
    have hc : (⌈(1023.5 : ℚ)⌉ : ℤ) = 1024 := by
      rw [Int.ceil_eq_iff]
      norm_num
    omega
  omega

/-- The whole per-voice frequency computation from the incoming hertz
value: clamp, then the halving loop from the initial word 0x2000.  Returns
the final fraction, the block word before the fraction is added, and the
halving count. -/
def noteOnEncode (hz : ℚ) : ℚ × ℕ × ℕ :=
  hzHalve (noteOnClamp hz) 8192 0

/-- The final register word m_x (line 317): the block word plus the
fraction rounded by adding 0.5 and truncating (exact for the nonnegative
fractions that occur). -/
def noteOnWord (hz : ℚ) : ℕ :=
  (noteOnEncode hz).2.1 + (⌊(noteOnEncode hz).1 + 1 / 2⌋).toNat

/-! ## The worker callback (MeasureThreaded::destData::callback, lines 1262-1321)

The callback runs on its own worker thread; its mutex acquisitions guard
only the cache lookup and insert, and the counters are atomic.  What the
claims constrain is the callback's sequential effect on the shared state
(cache, counters), on the task's instrument record, and on the semaphore,
which is what is modelled; the ghost fields record how many capacity slots
the callback released and whether it invoked MeasureDurations (and through
it the chip). -/

/-- Modelled from the spec: the fields of BanksDump::InstrumentEntry that
the callback reads and writes; instFlags carries the blank/silent flag
bit, whose numeric value lives in the header (not in src/), so the bit is
a parameter of the model. -/
structure InstRec where
  delay_on_ms : ℤ
  delay_off_ms : ℤ
  instFlags : ℕ
deriving DecidableEq

/-- The scheduler state shared by the workers (indexed branch): the compact
cache, the cache-hit counter and the completed counter. -/
structure SchedState where
  cache : List (OperatorsKey × CacheRec)
  cache_matches : ℕ
  done : ℕ
deriving DecidableEq

structure CallbackResult where
  state : SchedState
  insRec : InstRec
  semaphoreNotify : ℕ
  emulated : Bool
deriving DecidableEq

/-- The indexed branch of the callback (lines 1269-1296 plus the endWork
epilogue, lines 1317-1320).  The measuring function stands for
MeasureDurations together with its chip; it is a parameter because a hit
must not invoke it.  On a hit the cached result is written into the
record's delay fields and its blank flag bit is ORed in when the cached
silence flag is set; on a miss the measurement runs (MeasureDurations
itself performs the same record writeback, lines 735-738) and the result is
inserted into the cache.  Both paths notify the semaphore once and
increment the completed counter. -/
def callback (blankBit : ℕ) (measure : InstRec → CacheRec) (key : OperatorsKey)
    (st : SchedState) (r : InstRec) : CallbackResult :=
  match alFind st.cache key with
  | some di =>
    { state := { st with cache_matches := st.cache_matches + 1, done := st.done + 1 }
      insRec := { r with
        delay_on_ms := di.ms_sound_kon
        delay_off_ms := di.ms_sound_koff
        instFlags := if di.nosound then r.instFlags ||| blankBit else r.instFlags }
      semaphoreNotify := 1
      emulated := false }
  | none =>
    let info := measure r
    { state := { st with cache := alInsert st.cache key info, done := st.done + 1 }
      insRec := { r with
        delay_on_ms := info.ms_sound_kon
        delay_off_ms := info.ms_sound_koff
        instFlags := if info.nosound then r.instFlags ||| blankBit else r.instFlags }
      semaphoreNotify := 1
      emulated := true }

/-- The scheduler state for the legacy branch (struct-keyed cache). -/
structure SchedStateL where
  cache : List (InsKey × CacheRec)
  cache_matches : ℕ
  done : ℕ
deriving DecidableEq

structure CallbackResultL where
  state : SchedStateL
  semaphoreNotify : ℕ
  emulated : Bool
deriving DecidableEq

/-- The legacy branch of the callback (lines 1298-1315 plus endWork): a hit
only counts; nothing is copied into any instrument record (legacy results
live in the cache map itself). -/
def callbackLegacy (measure : Unit → CacheRec) (key : InsKey)
    (st : SchedStateL) : CallbackResultL :=
  match alFind st.cache key with
  | some _ =>
    { state := { st with cache_matches := st.cache_matches + 1, done := st.done + 1 }
      semaphoreNotify := 1
      emulated := false }
  | none =>
    let info := measure ()
    { state := { st with cache := alInsert st.cache key info, done := st.done + 1 }
      semaphoreNotify := 1
      emulated := true }

/-- A concrete legacy file record whose found flags are both zero: it
parses completely but LoadCache never inserts it. -/
def exLegacyRec : LegacyFileRec :=
  { insno1 := 0, insno2 := 0
    cache1 := zeroInsData, cache2 := zeroInsData
    notenum := 0, real4opB := 0, pseudo4opB := 0
    voice2detune := 0
    found_f0B := 0, found_f1B := 0
    id_f0 := zeroInsData, id_f1 := zeroInsData
    kon := 0, koff := 0, nosoundB := 0 }

/-- A concrete legacy instrument key, for witnesses. -/
def exInsKey : InsKey :=
  { insno1 := 0, insno2 := 0
    instCache1 := zeroInsData, instCache2 := zeroInsData
    notenum := 0, real4op := false, pseudo4op := false
    voice2_fine_tune := 0 }

/-! ## The envelope analyzer: MeasureDurations
(measurer.cpp lines 339-527, legacy; lines 530-774, indexed)

Modelling decisions, each marked against the source:

* The chip is an abstract deterministic state machine: TinySynth's
  resetChip / setInstrument / noteOn / noteOff are state transformers and
  gen1 produces one stereo frame's left sample (the code only ever reads
  audioBuffer[2*j]).  The inner sub-block loop (blocksize at most 256)
  only partitions the same sample sequence, so one period is exactly
  samples_per_interval = 49716 / 150 = 331 consecutive samples.
* The audio history's contiguous view is, by the AudioHistory theorems
  above, the last min(length, capacity) appended samples in order; the
  model tracks the appended list and takes that view directly.  The
  capacity is ceil(0.1 * 49716) = 4972 (the double product 0.1 * 49716
  rounds to slightly above 4971.6, so ceil gives 4972).
* MeasureRMS (with the Hann window of the same length) is a pure function
  of the view; the model takes it as a parameter rms since its value goes
  through transcendental cos/sqrt.  The winTrace ghost field records the
  window length at every MeasureRMS call; HannWindow is re-invoked (with
  that same length) exactly when the length changed.
* Amplitudes are rationals; the comparisons and constant multiplications
  the loops perform are exact on doubles.  The final int64 casts of
  quarter * 1000.0 / 150 and keyoff * 1000.0 / 150 truncate toward zero;
  for the integer arguments that occur the double computation and the
  natural-number division q * 1000 / 150 agree.
* The two variants differ, apart from the instrument programming hidden
  inside the SynthOps, only in the final silence epsilon (lines 524 and
  733); epsLo/epsHi make that a parameter.
* bodiesOn, brokeOn, winTrace and replayCount are ghost instrumentation:
  they record how many attack period bodies ran, whether the attack loop
  ended via break, the RMS window lengths, and how many periods the peak
  replay performed.  They influence nothing. -/

structure SynthOps (σ : Type) where
  resetChip : σ → σ
  setInstrument : σ → σ
  noteOn : σ → σ
  noteOff : σ → σ
  gen1 : σ → σ × ℤ

/-- Generate n consecutive (left-channel) samples. -/
def genSamples {σ : Type} (ops : SynthOps σ) : ℕ → σ → σ × List ℤ
  | 0, s => (s, [])
  | n + 1, s =>
    let g := ops.gen1 s
    let g2 := genSamples ops n g.1
    (g2.1, g.2 :: g2.2)

/-- The audio-history capacity in samples. -/
def histCap : ℕ := 4972

/-- The logical size of the history after appending the list l since the
last reset. -/
def histSize (l : List ℤ) : ℕ := min l.length histCap

/-- The contiguous view of the history: its last histSize elements. -/
def histView (l : List ℤ) : List ℤ := l.drop (l.length - histSize l)

/-- The mutable state of one MeasureDurations run. -/
@[ext]
structure MeasState (σ : Type) where
  chip : σ
  hist : List ℤ
  winsize : ℕ
  winTrace : List ℕ
  sound_min : ℤ
  sound_max : ℤ
  begin_amplitude : ℚ
  peak_amplitude_value : ℚ
  peak_amplitude_time : ℕ
  quarter_amplitude_time : ℕ
  quarter_found : Bool
  keyoff_out_time : ℕ
  keyoff_found : Bool
  highest_sofar : ℚ
  windows_passed_on : ℕ
  windows_passed_off : ℕ
  bodiesOn : ℕ
  brokeOn : Bool
deriving DecidableEq

/-- The state at the top of the attack loop (lines 370-389): counters and
analysis registers zeroed, quarter time preset to max_period_on = 6000. -/
def initState {σ : Type} (s : σ) : MeasState σ :=
  { chip := s, hist := [], winsize := 0, winTrace := []
    sound_min := 0, sound_max := 0
    begin_amplitude := 0, peak_amplitude_value := 0, peak_amplitude_time := 0
    quarter_amplitude_time := 6000, quarter_found := false
    keyoff_out_time := 0, keyoff_found := false
    highest_sofar := 0
    windows_passed_on := 0, windows_passed_off := 0
    bodiesOn := 0, brokeOn := false }

/-- One attack-loop period body (lines 392-435): generate one period of
samples tracking the global min/max, append them to the history, recompute
the window on a size change, measure the RMS, run the peak/quarter
detection chain, and update the running maximum.  Returns the new state and
the measured RMS (the break decision, lines 437-440, is taken by the
loop). -/
def attackBody {σ : Type} (ops : SynthOps σ) (rms : List ℤ → ℚ) (period : ℕ)
    (st : MeasState σ) : MeasState σ × ℚ :=
  let g := genSamples ops 331 st.chip
  let mn := g.2.foldl min st.sound_min
  let mx := g.2.foldl max st.sound_max
  let hist2 := st.hist ++ g.2
  let vs := histSize hist2
  let r := rms (histView hist2)
  let stBase := { st with
    chip := g.1
    hist := hist2
    winsize := vs
    winTrace := st.winTrace ++ [vs]
    sound_min := mn
    sound_max := mx
    bodiesOn := st.bodiesOn + 1 }
  let st2 :=
    if period = 0 then
      { stBase with
        begin_amplitude := r
        peak_amplitude_value := r
        peak_amplitude_time := 0 }
    else if r > st.peak_amplitude_value then
      { stBase with
        peak_amplitude_value := r
        peak_amplitude_time := period
        quarter_found := false }
    else if st.quarter_found = false ∧ r ≤ st.peak_amplitude_value * (8 / 1000) then
      { stBase with quarter_amplitude_time := period, quarter_found := true }
    else stBase
  let st3 := if r > st2.highest_sofar then { st2 with highest_sofar := r } else st2
  (st3, r)

/-- The attack loop (lines 390-441): up to 6000 periods; the break
condition (line 437) uses the just-updated running maximum and sample
range; windows_passed_on is incremented only when the iteration completes
without breaking (the for-loop update is skipped by break). -/
def attackLoop {σ : Type} (ops : SynthOps σ) (rms : List ℤ → ℚ) :
    ℕ → ℕ → MeasState σ → MeasState σ
  | _, 0, st => st
  | period, fuel + 1, st =>
    let b := attackBody ops rms period st
    if 900 < period ∧ (b.2 < b.1.highest_sofar * (8 / 1000) ∨
        (-1 ≤ b.1.sound_min ∧ b.1.sound_max ≤ 1)) then
      { b.1 with brokeOn := true }
    else
      attackLoop ops rms (period + 1) fuel
        { b.1 with windows_passed_on := b.1.windows_passed_on + 1 }

/-- The peak replay loop (lines 459-472): periods while
(period < peakTime or period = 0) and period < 6000; it only generates
samples into the freshly reset history (no min/max tracking, no RMS).
Returns the chip, the replayed history and the period count (ghost). -/
def replayLoop {σ : Type} (ops : SynthOps σ) (pt : ℕ) :
    ℕ → ℕ → σ → List ℤ → ℕ → σ × List ℤ × ℕ
  | _, 0, c, h, cnt => (c, h, cnt)
  | period, fuel + 1, c, h, cnt =>
    if period < pt ∨ period = 0 then
      let g := genSamples ops 331 c
      replayLoop ops pt (period + 1) fuel g.1 (h ++ g.2) (cnt + 1)
    else (c, h, cnt)

/-- One release-loop period body (lines 479-506): like the attack body but
with only the key-off detection chain; peak value and running maximum are
read, never written. -/
def releaseBody {σ : Type} (ops : SynthOps σ) (rms : List ℤ → ℚ) (period : ℕ)
    (st : MeasState σ) : MeasState σ × ℚ :=
  let g := genSamples ops 331 st.chip
  let mn := g.2.foldl min st.sound_min
  let mx := g.2.foldl max st.sound_max
  let hist2 := st.hist ++ g.2
  let vs := histSize hist2
  let r := rms (histView hist2)
  let stBase := { st with
    chip := g.1
    hist := hist2
    winsize := vs
    winTrace := st.winTrace ++ [vs]
    sound_min := mn
    sound_max := mx }
  let st2 :=
    if st.keyoff_found = false ∧ r ≤ st.peak_amplitude_value * (2 / 10) then
      { stBase with keyoff_out_time := period, keyoff_found := true }
    else stBase
  (st2, r)

/-- The release loop (lines 477-513): up to 9000 periods with the two break
statements of lines 508-512. -/
def releaseLoop {σ : Type} (ops : SynthOps σ) (rms : List ℤ → ℚ) :
    ℕ → ℕ → MeasState σ → MeasState σ
  | _, 0, st => st
  | period, fuel + 1, st =>
    let b := releaseBody ops rms period st
    if b.2 < b.1.highest_sofar * (2 / 10) then b.1
    else if 900 < period ∧ (-1 ≤ b.1.sound_min ∧ b.1.sound_max ≤ 1) then b.1
    else
      releaseLoop ops rms (period + 1) fuel
        { b.1 with windows_passed_off := b.1.windows_passed_off + 1 }

/-- The result record (the DurationInfo fields filled on lines 515-524 /
724-733). -/
structure DurationInfo where
  ms_sound_kon : ℤ
  ms_sound_koff : ℤ
  nosound : Bool
  begin_amplitude : ℚ
  peak_amplitude_value : ℚ
  peak_amplitude_time : ℕ
  quarter_amplitude_time : ℕ
  keyoff_out_time : ℕ
deriving DecidableEq

/-- A whole MeasureDurations run with its intermediate states (ghost). -/
structure MeasRun (σ : Type) where
  attackSt : MeasState σ
  quarter : ℕ
  replayCount : ℕ
  releaseStart : MeasState σ
  releaseSt : MeasState σ
  result : DurationInfo

/-- The attack-loop result of a MeasureDurations run: program the chip and
key the note on (lines 360-369), then run the attack loop from period 0
with its 6000-period budget. -/
def attackStOf {σ : Type} (ops : SynthOps σ) (rms : List ℤ → ℚ) (s0 : σ) : MeasState σ :=
  attackLoop ops rms 0 6000 (initState (ops.noteOn (ops.setInstrument (ops.resetChip s0))))

/-- The settle time of a run: the quarter-amplitude time when it was found,
else windows_passed_on (lines 443-444). -/
def quarterOf {σ : Type} (ops : SynthOps σ) (rms : List ℤ → ℚ) (s0 : σ) : ℕ :=
  if (attackStOf ops rms s0).quarter_found then (attackStOf ops rms s0).quarter_amplitude_time
  else (attackStOf ops rms s0).windows_passed_on

/-- The replay of the attack up to the peak (lines 455-472), run when the
attack loop broke early: reset, reprogram, key on, replay. -/
def replayOf {σ : Type} (ops : SynthOps σ) (rms : List ℤ → ℚ) (s0 : σ) : σ × List ℤ × ℕ :=
  replayLoop ops (attackStOf ops rms s0).peak_amplitude_time 0 6000
    (ops.noteOn (ops.setInstrument (ops.resetChip (attackStOf ops rms s0).chip))) [] 0

/-- The state entering the release loop, paired with the replay period
count (lines 446-475): note-off directly when the attack exhausted its 6000
periods, else after the replay (which also restarts the history). -/
def stBOf {σ : Type} (ops : SynthOps σ) (rms : List ℤ → ℚ) (s0 : σ) : MeasState σ × ℕ :=
  if 6000 ≤ (attackStOf ops rms s0).windows_passed_on then
    ({ attackStOf ops rms s0 with chip := ops.noteOff (attackStOf ops rms s0).chip }, 0)
  else
    ({ attackStOf ops rms s0 with
        chip := ops.noteOff (replayOf ops rms s0).1
        hist := (replayOf ops rms s0).2.1 }, (replayOf ops rms s0).2.2)

/-- The release-loop result of a run (lines 477-513). -/
def releaseStOf {σ : Type} (ops : SynthOps σ) (rms : List ℤ → ℚ) (s0 : σ) : MeasState σ :=
  releaseLoop ops rms 0 9000 (stBOf ops rms s0).1

/-- MeasureDurations, generic in the chip, the RMS computation and the
final silence epsilon: program the chip and key the note on, run the attack
loop, default the quarter time to windows_passed_on when it was never found
(lines 443-444), then either key off directly (attack exhausted) or reset,
reprogram and replay up to the peak before keying off (lines 446-474), then
run the release loop and assemble the result. -/
def measureDurations {σ : Type} (ops : SynthOps σ) (rms : List ℤ → ℚ)
    (epsLo epsHi : ℤ) (s0 : σ) : MeasRun σ :=
  let stA := attackStOf ops rms s0
  let q := quarterOf ops rms s0
  let stB := stBOf ops rms s0
  let stR := releaseStOf ops rms s0
  { attackSt := stA
    quarter := q
    replayCount := stB.2
    releaseStart := stB.1
    releaseSt := stR
    result :=
      { ms_sound_kon := (q * 1000 / 150 : ℕ)
        ms_sound_koff := (stR.keyoff_out_time * 1000 / 150 : ℕ)
        nosound := decide (stR.peak_amplitude_value < 1 / 2) ||
          (decide (epsLo ≤ stR.sound_min) && decide (stR.sound_max ≤ epsHi))
        begin_amplitude := stR.begin_amplitude
        peak_amplitude_value := stR.peak_amplitude_value
        peak_amplitude_time := stR.peak_amplitude_time
        quarter_amplitude_time := q
        keyoff_out_time := stR.keyoff_out_time } }

/-- The legacy variant (lines 339-527): silence epsilon is the sample range
[-1, 1] (line 524). -/
def measureDurationsLegacy {σ : Type} (ops : SynthOps σ) (rms : List ℤ → ℚ)
    (s0 : σ) : MeasRun σ :=
  measureDurations ops rms (-1) 1 s0

/-- The indexed-operator variant (lines 530-774): silence epsilon is the
sample range [-19, 18] (line 733). -/
def measureDurationsIndexed {σ : Type} (ops : SynthOps σ) (rms : List ℤ → ℚ)
    (s0 : σ) : MeasRun σ :=
  measureDurations ops rms (-19) 18 s0

/-- A deterministic chip abstraction: the state is the number of samples
generated since the last reset, and the n-th sample after programming is
f n.  resetChip rewinds the stream: together with setInstrument/noteOn
being replayed identically, this captures the determinism and
replayability of the real chip that the peak replay relies on. -/
def streamOps (f : ℕ → ℤ) : SynthOps ℕ :=
  { resetChip := fun _ => 0
    setInstrument := id
    noteOn := id
    noteOff := id
    gen1 := fun n => (n + 1, f n) }

/-- The HannWindow helper (lines 113-117): the cosine of the scaled index
is abstract; the divisor n - 1 appears in the index ratio. -/
def hannWindow (cosTwoPi : ℚ → ℚ) (n : ℕ) : List ℚ :=
  (List.range n).map fun i => 1 / 2 * (1 - cosTwoPi ((i : ℚ) / ((n : ℚ) - 1)))

/-- The MeasureRMS helper (lines 119-137): windowed mean over length, then
the square root (abstract) of the variance-style sum over length - 1. -/
def measureRMS (sqrtQ : ℚ → ℚ) (signal window : List ℚ) (length : ℕ) : ℚ :=
  let mean := ((List.range length).map fun i =>
    window.getD i 0 * signal.getD i 0).sum / (length : ℚ)
  sqrtQ (((List.range length).map fun i =>
    (window.getD i 0 * signal.getD i 0 - mean) ^ 2).sum / ((length : ℚ) - 1))

/-- The two concrete runs used as counterexample vehicles: a constant
stream at sample value 1 (range inside [-1, 1], plausible RMS 0.353) on the
legacy variant, and a constant stream at sample value 10 (beyond the
claimed epsilon 1, inside the indexed epsilon 18, plausible RMS 1) on the
indexed variant.  The constant RMS oracles stand for the essentially
constant windowed RMS of these constant signals. -/
def runConstOne : MeasRun ℕ :=
  measureDurationsLegacy (streamOps fun _ => 1) (fun _ => 353 / 1000) 0

def runConstTen : MeasRun ℕ :=
  measureDurationsIndexed (streamOps fun _ => 10) (fun _ => 1) 0

/-- The attack-loop state after k completed periods of the constant-10 run
(meaningful for 1 ≤ k ≤ 6000). -/
def stateTen (k : ℕ) : MeasState ℕ :=
  { chip := 331 * k
    hist := List.replicate (331 * k) 10
    winsize := min (331 * k) 4972
    winTrace := (List.range k).map fun i => min (331 * (i + 1)) 4972
    sound_min := 0
    sound_max := 10
    begin_amplitude := 1
    peak_amplitude_value := 1
    peak_amplitude_time := 0
    quarter_amplitude_time := 6000
    quarter_found := false
    keyoff_out_time := 0
    keyoff_found := false
    highest_sofar := 1
    windows_passed_on := k
    windows_passed_off := 0
    bodiesOn := k
    brokeOn := false }

/-- The release-phase state of the constant-10 run after p completed
release periods. -/
def stateTenR (p : ℕ) : MeasState ℕ :=
  { stateTen 6000 with
    chip := 331 * (6000 + p)
    hist := List.replicate (331 * (6000 + p)) 10
    winsize := min (331 * (6000 + p)) 4972
    winTrace := ((List.range 6000).map fun i => min (331 * (i + 1)) 4972) ++
      List.replicate p 4972
    windows_passed_off := p }

/-- The attack-loop state after k completed periods of the constant-1 run
(meaningful for 1 ≤ k ≤ 901). -/
def stateOne (k : ℕ) : MeasState ℕ :=
  { chip := 331 * k
    hist := List.replicate (331 * k) 1
    winsize := min (331 * k) 4972
    winTrace := (List.range k).map fun i => min (331 * (i + 1)) 4972
    sound_min := 0
    sound_max := 1
    begin_amplitude := 353 / 1000
    peak_amplitude_value := 353 / 1000
    peak_amplitude_time := 0
    quarter_amplitude_time := 6000
    quarter_found := false
    keyoff_out_time := 0
    keyoff_found := false
    highest_sofar := 353 / 1000
    windows_passed_on := k
    windows_passed_off := 0
    bodiesOn := k
    brokeOn := false }

/-- The constant-1 attack loop breaks at period 901: body 901 has run (902
bodies in all) but the for-update was skipped, leaving 901 completed
periods. -/
def stateOneBroke : MeasState ℕ :=
  { stateOne 902 with windows_passed_on := 901, brokeOn := true }

/-- The release-phase entry state of the constant-1 run: chip reset and
replayed for one period (the peak time is 0), history reset and holding
that period. -/
def stateOneStart : MeasState ℕ :=
  { stateOneBroke with chip := 331, hist := List.replicate 331 1 }

/-- The release-phase state of the constant-1 run after p completed release
periods (meaningful for 1 ≤ p ≤ 901). -/
def stateOneR (p : ℕ) : MeasState ℕ :=
  { stateOneBroke with
    chip := 331 * (1 + p)
    hist := List.replicate (331 * (1 + p)) 1
    winsize := min (331 * (1 + p)) 4972
    winTrace := stateOneBroke.winTrace ++
      (List.range p).map fun i => min (331 * (i + 2)) 4972
    windows_passed_off := p }

end AdlMeasure

/-! # Theorems -/

namespace AdlMeasure

namespace AudioHistory

variable {α : Type}

@[simp] theorem addAll_nil (h : AudioHistory α) : h.addAll [] = h := rfl

@[simp] theorem addAll_append (h : AudioHistory α) (xs ys : List α) :
    h.addAll (xs ++ ys) = (h.addAll xs).addAll ys := by
  simp [addAll, List.foldl_append]

@[simp] theorem capacity_add (h : AudioHistory α) (x : α) :
    (h.add x).m_capacity = h.m_capacity := rfl

theorem length_add (h : AudioHistory α) (x : α) :
    (h.add x).m_length = min (h.m_length + 1) h.m_capacity := by
  simp only [add]
  split <;> omega

theorem index_add (h : AudioHistory α) (x : α) (hlt : h.m_index < h.m_capacity) :
    (h.add x).m_index = (h.m_index + 1) % h.m_capacity := by
  simp only [add]
  split
  · rename_i hne
    exact (Nat.mod_eq_of_lt (by omega)).symm
  · rename_i hne
    rw [not_not] at hne
    rw [hne, Nat.mod_self]

/-- The state invariant after appending the list `xs` to a freshly reset
buffer of capacity `C ≥ 1`: index and length are determined by `xs.length`,
and each slot of the backing array (in both of its copies) holds the last
value whose append position hit that slot. -/
theorem addAll_fresh_inv [Inhabited α] (C : ℕ) (hC : 1 ≤ C) (xs : List α) :
    ((fresh α C).addAll xs).m_capacity = C ∧
    ((fresh α C).addAll xs).m_index = xs.length % C ∧
    ((fresh α C).addAll xs).m_length = min xs.length C ∧
    ∀ m (hm : m < xs.length), xs.length ≤ m + C →
      ((fresh α C).addAll xs).m_data (m % C) = xs.get ⟨m, hm⟩ ∧
      ((fresh α C).addAll xs).m_data (m % C + C) = xs.get ⟨m, hm⟩ := by
  induction xs using List.reverseRecOn with
  | nil =>
    refine ⟨rfl, by simp [fresh, addAll], by simp [fresh, addAll], ?_⟩
    intro m hm
    simp at hm
  | append_singleton xs x ih =>
    obtain ⟨hcap, hidx, hlen, hdata⟩ := ih
    set h := (fresh α C).addAll xs with hh
    have hstep : (fresh α C).addAll (xs ++ [x]) = h.add x := by
      simp [hh]
      rfl
    have hidxlt : h.m_index < C := by
      rw [hidx]; exact Nat.mod_lt _ (by omega)
    have hN : (xs ++ [x]).length = xs.length + 1 := by simp
    refine ⟨by rw [hstep, capacity_add, hcap], ?_, ?_, ?_⟩
    · rw [hstep, index_add h x (by rw [hcap]; exact hidxlt), hcap, hidx, hN, Nat.mod_add_mod]
    · rw [hstep, length_add, hcap, hlen, hN]
      omega
    · intro m hm hbound
      have hm1 : m < xs.length + 1 := by simpa using hm
      have hbound1 : xs.length + 1 ≤ m + C := by simpa using hbound
      rcases Nat.lt_succ_iff_lt_or_eq.mp hm1 with hmlt | hmeq
      · -- an old element, not overwritten by the new double-write
        have hne : m % C ≠ xs.length % C := by
          intro heq
          have hle : m ≤ xs.length := le_of_lt hmlt
          have hdvd : C ∣ xs.length - m := (Nat.modEq_iff_dvd' hle).mp heq
          have hpos : 0 < xs.length - m := by omega
          have := Nat.le_of_dvd hpos hdvd
          omega
        have hget : (xs ++ [x]).get ⟨m, hm⟩ = xs.get ⟨m, hmlt⟩ := by
          rw [List.get_append_left]
        have hmodlt : m % C < C := Nat.mod_lt _ (by omega)
        have hidxmodlt : xs.length % C < C := Nat.mod_lt _ (by omega)
        have hold := hdata m hmlt (by omega)
        constructor
        · rw [hstep]
          show (if m % C = h.m_index ∨ m % C = h.m_index + h.m_capacity then x
                else h.m_data (m % C)) = _
          rw [if_neg, hget]
          · exact hold.1
          · rw [hidx, hcap]
            push_neg
            exact ⟨hne, by omega⟩
        · rw [hstep]
          show (if m % C + C = h.m_index ∨ m % C + C = h.m_index + h.m_capacity then x
                else h.m_data (m % C + C)) = _
          rw [if_neg, hget]
          · exact hold.2
          · rw [hidx, hcap]
            push_neg
            exact ⟨by omega, by omega⟩
      · -- the freshly appended element: both copies were just written
        subst hmeq
        have hget : (xs ++ [x]).get ⟨xs.length, hm⟩ = x := by
          simp
        constructor
        · rw [hstep]
          show (if xs.length % C = h.m_index ∨ _ then x else _) = _
          rw [if_pos, hget]
          left; rw [hidx]
        · rw [hstep]
          show (if xs.length % C + C = h.m_index ∨ xs.length % C + C = h.m_index + h.m_capacity
                then x else _) = _
          rw [if_pos, hget]
          right; rw [hidx, hcap]

/-- The ring-buffer correctness statement: after any sequence of appends the
contiguous view is exactly the last `min N C` appended values, in order. -/
theorem view_addAll_fresh [Inhabited α] (C : ℕ) (hC : 1 ≤ C) (xs : List α) :
    ((fresh α C).addAll xs).view = xs.drop (xs.length - min xs.length C) := by
  obtain ⟨hcap, hidx, hlen, hdata⟩ := addAll_fresh_inv C hC xs
  set h := (fresh α C).addAll xs with hh
  set N := xs.length with hN
  set len := min N C with hlendef
  have hlenN : len ≤ N := Nat.min_le_left _ _
  have hlenC : len ≤ C := Nat.min_le_right _ _
  apply List.ext_get
  · simp [view, hlen]
    omega
  · intro j hj1 hj2
    rw [view] at hj1
    simp only [List.length_map, List.length_range, hlen] at hj1
    -- the view element at j reads backing position idx + C - len + j
    have hview : h.view.get ⟨j, by simpa [view, hlen] using hj1⟩ =
        h.m_data (h.m_index + h.m_capacity - h.m_length + j) := by
      simp [view]
    rw [hview, hidx, hcap, hlen]
    -- the dropped-prefix element at j is xs[N - len + j]
    have hm : N - len + j < N := by omega
    have hdrop : (xs.drop (N - min N C)).get ⟨j, hj2⟩ = xs.get ⟨N - len + j, hm⟩ := by
      rw [List.get_drop']
    rw [hdrop]
    have hbound : N ≤ (N - len + j) + C := by omega
    obtain ⟨hd1, hd2⟩ := hdata (N - len + j) hm hbound
    -- identify the backing position with one of the two copies of slot m % C
    set m := N - len + j with hmdef
    set i := N % C with hi
    have hiC : i < C := Nat.mod_lt _ (by omega)
    have hq : C * (N / C) + i = N := Nat.div_add_mod N C
    by_cases hcase : len ≤ i + j
    · -- high copy: position = m % C + C
      have hmmod : m % C = i + j - len := by
        have : m = (i + j - len) + C * (N / C) := by omega
        rw [this, Nat.add_mul_mod_self_left]
        exact Nat.mod_eq_of_lt (by omega)
      have hpos : i + C - len + j = m % C + C := by omega
      rw [hpos, hd2]
    · -- low copy: position = m % C; the buffer has wrapped at least once here
      push_neg at hcase
      have hqpos : 1 ≤ N / C := by
        rcases Nat.eq_zero_or_pos (N / C) with h0 | h1
        · rw [h0, Nat.mul_zero] at hq
          -- N = i < C, so len = N; but i + j < len = i forces a contradiction
          omega
        · exact h1
      obtain ⟨k, hk⟩ := Nat.exists_eq_add_of_le hqpos
      have hmul : C * (N / C) = C * k + C := by rw [hk]; ring
      have hmmod : m % C = C + i + j - len := by
        have hrepr : m = (C + i + j - len) + C * k := by omega
        rw [hrepr, Nat.add_mul_mod_self_left]
        exact Nat.mod_eq_of_lt (by omega)
      have hpos : i + C - len + j = m % C := by omega
      rw [hpos, hd1]

end AudioHistory

/-- C4: for every capacity C at least 1 and every sequence of N
single-sample appends to a freshly reset AudioHistory buffer, size() equals
min(N, C) and the contiguous view data()[0..size()-1] equals the last
size() appended values in their append order, including after the write
index wraps. -/
theorem audioHistory_ring_correct {α : Type} [Inhabited α] (C : ℕ) (hC : 1 ≤ C)
    (xs : List α) :
    ((AudioHistory.fresh α C).addAll xs).size = min xs.length C ∧
    ((AudioHistory.fresh α C).addAll xs).view =
      xs.drop (xs.length - min xs.length C) := by
  refine ⟨?_, AudioHistory.view_addAll_fresh C hC xs⟩
  simpa [AudioHistory.size] using (AudioHistory.addAll_fresh_inv C hC xs).2.2.1

/-- Witness for C4: five appends into a capacity-3 buffer wrap the index
and leave the last three values as the view. -/
theorem audioHistory_ring_correct_witness :
    (1 : ℕ) ≤ 3 ∧
    ((AudioHistory.fresh ℤ 3).addAll [10, 20, 30, 40, 50]).size = 3 ∧
    ((AudioHistory.fresh ℤ 3).addAll [10, 20, 30, 40, 50]).view = [30, 40, 50] := by
  have h := audioHistory_ring_correct (α := ℤ) 3 (by norm_num)
    ([10, 20, 30, 40, 50] : List ℤ)
  refine ⟨by norm_num, h.1.trans (by decide), h.2.trans ?_⟩
  decide

/-! ## Serialisation round-trip lemmas -/

theorem readInt32_le32 (z : ℤ) (rest : List ℕ)
    (h1 : -2147483648 ≤ z) (h2 : z < 2147483648) :
    readInt32 (le32 z ++ rest) = some (z, rest) := by
  simp only [le32, List.cons_append, List.nil_append, readInt32, toSint32LE, toUint32LE,
    Option.some.injEq, Prod.mk.injEq]
  refine ⟨?_, trivial⟩
  split <;> omega

theorem readKeyInts_enc (ks : List ℤ) (rest : List ℕ)
    (h : ∀ z ∈ ks, -2147483648 ≤ z ∧ z < 2147483648) :
    readKeyInts ks.length ((ks.map le32).flatten ++ rest) = some (ks, rest) := by
  induction ks with
  | nil => simp [readKeyInts]
  | cons z zs ih =>
    have h1 := readInt32_le32 z ((zs.map le32).flatten ++ rest) (h z (by simp)).1
      (h z (by simp)).2
    have h2 := ih fun w hw => h w (by simp [hw])
    simp only [List.map_cons, List.flatten_cons, List.append_assoc, List.length_cons,
      readKeyInts]
    rw [h1]
    dsimp only
    rw [h2]

theorem parseRecX_enc (k : OperatorsKey) (v : CacheRec) (rest : List ℕ)
    (hk9 : k.length = 9) (hkr : ∀ z ∈ k, -2147483648 ≤ z ∧ z < 2147483648)
    (hkon1 : 0 ≤ v.ms_sound_kon) (hkon2 : v.ms_sound_kon < 65536)
    (hkoff1 : 0 ≤ v.ms_sound_koff) (hkoff2 : v.ms_sound_koff < 65536) :
    parseRecX (encRecX k v ++ rest) = some ((k, v), rest) := by
  obtain ⟨kon, koff, ns⟩ := v
  simp only at hkon1 hkon2 hkoff1 hkoff2
  unfold parseRecX encRecX
  rw [List.append_assoc, ← hk9, readKeyInts_enc k _ hkr]
  dsimp only
  simp only [le16, List.cons_append, List.nil_append, List.append_assoc]
  have e1 : (toUint16LE ((kon % 65536).toNat % 256) ((kon % 65536).toNat / 256) : ℤ) = kon := by
    simp only [toUint16LE]; omega
  have e2 : (toUint16LE ((koff % 65536).toNat % 256) ((koff % 65536).toNat / 256) : ℤ) = koff := by
    simp only [toUint16LE]; omega
  have e3 : decide ((if ns then (1 : ℕ) else 0) = 1) = ns := by cases ns <;> simp
  rw [e1, e2, e3]

theorem loadLoopX_enc (ms : List (OperatorsKey × CacheRec)) (acc : List (OperatorsKey × CacheRec))
    (hwf : ∀ p ∈ ms, p.1.length = 9 ∧ (∀ z ∈ p.1, -2147483648 ≤ z ∧ z < 2147483648) ∧
      0 ≤ p.2.ms_sound_kon ∧ p.2.ms_sound_kon < 65536 ∧
      0 ≤ p.2.ms_sound_koff ∧ p.2.ms_sound_koff < 65536) :
    loadLoopX ms.length ((ms.map fun p => encRecX p.1 p.2).flatten) acc =
      ms.foldl (fun a p => alInsert a p.1 p.2) acc := by
  induction ms generalizing acc with
  | nil => simp [loadLoopX]
  | cons p ps ih =>
    obtain ⟨h9, hr, h1, h2, h3, h4⟩ := hwf p (by simp)
    simp only [List.map_cons, List.flatten_cons, List.append_assoc, List.length_cons,
      loadLoopX, List.foldl_cons]
    rw [parseRecX_enc p.1 p.2 _ h9 hr h1 h2 h3 h4]
    dsimp only
    exact ih (alInsert acc p.1 p.2) fun q hq => hwf q (by simp [hq])

/-- The record loop of LoadCacheX stops at the first malformed record and
keeps everything inserted before it (here: a well-formed run of records
followed by a tail that fails to parse, with records still expected). -/
theorem loadLoopX_stops (ms : List (OperatorsKey × CacheRec)) (acc : List (OperatorsKey × CacheRec))
    (tail : List ℕ) (n : ℕ)
    (hn : ms.length < n)
    (hwf : ∀ p ∈ ms, p.1.length = 9 ∧ (∀ z ∈ p.1, -2147483648 ≤ z ∧ z < 2147483648) ∧
      0 ≤ p.2.ms_sound_kon ∧ p.2.ms_sound_kon < 65536 ∧
      0 ≤ p.2.ms_sound_koff ∧ p.2.ms_sound_koff < 65536)
    (htail : parseRecX tail = none) :
    loadLoopX n ((ms.map fun p => encRecX p.1 p.2).flatten ++ tail) acc =
      ms.foldl (fun a p => alInsert a p.1 p.2) acc := by
  induction ms generalizing acc n with
  | nil =>
    obtain ⟨n', rfl⟩ : ∃ n', n = n' + 1 := ⟨n - 1, by omega⟩
    simp [loadLoopX, htail]
  | cons p ps ih =>
    obtain ⟨n', rfl⟩ : ∃ n', n = n' + 1 := ⟨n - 1, by omega⟩
    obtain ⟨h9, hr, h1, h2, h3, h4⟩ := hwf p (by simp)
    simp only [List.map_cons, List.flatten_cons, List.append_assoc, loadLoopX,
      List.foldl_cons]
    rw [parseRecX_enc p.1 p.2 _ h9 hr h1 h2 h3 h4]
    dsimp only
    exact ih (alInsert acc p.1 p.2) n' (by simpa using hn)
      fun q hq => hwf q (by simp [hq])

theorem alFind_append_of_none {κ ν : Type} [DecidableEq κ] (a b : List (κ × ν)) (k : κ)
    (h : alFind a k = none) : alFind (a ++ b) k = alFind b k := by
  induction a with
  | nil => simp
  | cons p ps ih =>
    by_cases hp : p.1 = k
    · simp [alFind, List.find?_cons, hp] at h
    · have h' : alFind ps k = none := by
        simpa [alFind, List.find?_cons, hp] using h
      simpa [alFind, List.find?_cons, hp] using ih h'

/-- Folding insert-if-absent over entries whose keys are fresh and mutually
distinct appends them all, in order. -/
theorem foldl_alInsert_fresh {κ ν : Type} [DecidableEq κ]
    (ms : List (κ × ν)) (acc : List (κ × ν))
    (hnodup : (ms.map Prod.fst).Nodup)
    (hfresh : ∀ k ∈ ms.map Prod.fst, alFind acc k = none) :
    ms.foldl (fun a p => alInsert a p.1 p.2) acc = acc ++ ms := by
  induction ms generalizing acc with
  | nil => simp
  | cons p ps ih =>
    simp only [List.map_cons, List.nodup_cons] at hnodup
    have hp : alFind acc p.1 = none := hfresh p.1 (by simp)
    have hstep : alInsert acc p.1 p.2 = acc ++ [(p.1, p.2)] := by
      simp [alInsert, hp]
    have hfresh' : ∀ k ∈ ps.map Prod.fst, alFind (acc ++ [(p.1, p.2)]) k = none := by
      intro k hk
      have hk2 : alFind acc k = none := hfresh k (by simp [hk])
      have hkp : ¬(p.1 = k) := fun h => hnodup.1 (h ▸ hk)
      rw [alFind_append_of_none _ _ _ hk2]
      simp [alFind, List.find?_cons, hkp]
    rw [List.foldl_cons, hstep, ih (acc ++ [(p.1, p.2)]) hnodup.2 hfresh']
    simp

theorem fread_exact (xs rest : List ℕ) (n : ℕ) (h : xs.length = n) :
    fread n (xs ++ rest) = (xs, true, rest) := by
  subst h
  simp [fread, List.take_left, List.drop_left]

theorem fread_one (b : ℕ) (rest : List ℕ) : fread 1 (b :: rest) = ([b], true, rest) := by
  simp [fread]

theorem fread_two (a b : ℕ) (rest : List ℕ) :
    fread 2 (a :: b :: rest) = ([a, b], true, rest) := by
  simp [fread]

theorem loadCacheX_absent : loadCacheX none = [] := rfl

theorem loadCacheX_short (l : List ℕ) (h : l.length < 32) :
    loadCacheX (some l) = [] := by
  unfold loadCacheX fread
  simp [show ¬(32 ≤ l.length) by omega]

theorem loadCacheX_badmagic (l : List ℕ) (h : l.take 32 ≠ magicX) :
    loadCacheX (some l) = [] := by
  unfold loadCacheX fread
  by_cases h32 : 32 ≤ l.length
  · simp [h32, h]
  · simp [h32]

theorem loadCacheX_header (n : ℕ) (hn : n < 4294967296) (body : List ℕ) :
    loadCacheX (some (magicX ++ (le32n n ++ body))) = loadLoopX n body [] := by
  unfold loadCacheX
  dsimp only
  rw [fread_exact magicX (le32n n ++ body) 32 rfl]
  dsimp only
  simp only [le32n, List.cons_append, List.nil_append]
  have hcount : toUint32LE (n % 256) (n / 256 % 256) (n / 65536 % 256) (n / 16777216 % 256) = n := by
    simp only [toUint32LE]; omega
  rw [hcount]
  simp

/-- C3 (amended): saving a populated compact cache and loading the written
bytes reproduces exactly the same key-to-result mapping, provided every
entry's attack and release ms values lie in [0, 65536), every key component
fits in a signed 32-bit integer, the keys are distinct, and there are fewer
than 2^32 entries. -/
theorem cacheX_save_load_roundtrip (m : List (OperatorsKey × CacheRec))
    (hlen : m.length < 4294967296)
    (hnodup : (m.map Prod.fst).Nodup)
    (hwf : ∀ p ∈ m, wfEntryX p) :
    loadCacheX (some (saveCacheX m)) = m := by
  unfold saveCacheX
  rw [List.append_assoc, loadCacheX_header m.length hlen _]
  rw [loadLoopX_enc m [] fun p hp => hwf p hp]
  rw [foldl_alInsert_fresh m [] hnodup fun k _ => by simp [alFind]]
  simp

/-- C3 counterexample: the claim as stated only requires the ms values to be
below 65536; the entry with attack ms equal to -1 satisfies that, yet the
round trip turns -1 into 65535 and the loaded mapping differs. -/
theorem cacheX_roundtrip_fails_on_negative_ms :
    ((-1 : ℤ) < 65536) ∧
    loadCacheX (some (saveCacheX exMapNeg)) = [(exKeyX, ⟨65535, 0, false⟩)] ∧
    loadCacheX (some (saveCacheX exMapNeg)) ≠ exMapNeg := by
  refine ⟨by norm_num, ?_, ?_⟩ <;> decide

/-- Witness for the amended C3 theorem at a concrete one-entry cache. -/
theorem cacheX_save_load_roundtrip_witness :
    (exMapPos.length < 4294967296 ∧ (exMapPos.map Prod.fst).Nodup ∧
      ∀ p ∈ exMapPos, wfEntryX p) ∧
    loadCacheX (some (saveCacheX exMapPos)) = exMapPos :=
  ⟨⟨by decide, by decide, by decide⟩,
    cacheX_save_load_roundtrip exMapPos (by decide) (by decide) (by decide)⟩

/-! ## Legacy loader lemmas -/

theorem length_le64n (n : ℕ) : (le64n n).length = 8 := rfl

theorem length_le64 (z : ℤ) : (le64 z).length = 8 := rfl

theorem leVal_le64n (n : ℕ) (h : n < 18446744073709551616) : leVal (le64n n) = n := by
  simp only [le64n, leVal, List.foldr_cons, List.foldr_nil]
  omega

theorem sVal64_le64 (z : ℤ)
    (h1 : -9223372036854775808 ≤ z) (h2 : z < 9223372036854775808) :
    sVal64 (le64 z) = z := by
  have hv : leVal (le64n ((z % 18446744073709551616).toNat)) =
      (z % 18446744073709551616).toNat := leVal_le64n _ (by omega)
  simp only [sVal64, le64, hv]
  split <;> omega

theorem fread_le64n (n : ℕ) (rest : List ℕ) :
    fread 8 (le64n n ++ rest) = (le64n n, true, rest) :=
  fread_exact _ _ _ rfl

theorem fread_le64 (z : ℤ) (rest : List ℕ) :
    fread 8 (le64 z ++ rest) = (le64 z, true, rest) :=
  fread_exact _ _ _ rfl

theorem decide_boolByte (b : Bool) :
    decide ((if b then (1 : ℕ) else 0) ≠ 0) = b := by cases b <;> simp

theorem readU64_enc (n : ℕ) (rest : List ℕ) (h : n < 18446744073709551616) :
    readU64 (le64n n ++ rest) = some (n, rest) := by
  simp [readU64, fread_le64n, leVal_le64n n h]

theorem readS64_enc (z : ℤ) (rest : List ℕ)
    (h1 : -9223372036854775808 ≤ z) (h2 : z < 9223372036854775808) :
    readS64 (le64 z ++ rest) = some (z, rest) := by
  simp [readS64, fread_le64, sVal64_le64 z h1 h2]

theorem readByte_enc (b : ℕ) (rest : List ℕ) : readByte (b :: rest) = some (b, rest) := by
  simp [readByte, fread_one]

theorem readBlock_enc (d : InsData) (rest : List ℕ) (h : d.data.length = 11) :
    readBlock (encInsData d ++ rest) = some (d, rest) := by
  unfold readBlock encInsData
  rw [List.append_assoc, fread_exact d.data _ 11 h]
  simp [readByte_enc, decide_boolByte]

theorem readBlockSoft_enc (d : InsData) (rest : List ℕ) (h : d.data.length = 11) :
    readBlockSoft (encInsData d ++ rest) = (d, true, rest) := by
  unfold readBlockSoft encInsData
  rw [List.append_assoc, fread_exact d.data _ 11 h]
  simp [fread_one, decide_boolByte]

theorem readIdF_enc (d0 d1 : InsData) (rest : List ℕ)
    (h0 : d0.data.length = 11) (h1 : d1.data.length = 11) :
    readIdF (encInsData d0 ++ (encInsData d1 ++ rest)) = (d0, d1, rest) := by
  unfold readIdF
  rw [readBlockSoft_enc d0 _ h0]
  dsimp only
  rw [readBlockSoft_enc d1 _ h1]

/-- A fully present legacy record parses to exactly the decoded fields, its
contribution being determined by the revalidation block. -/
theorem parseRecLegacy_enc (idt : List (InsData × ℕ)) (itab : List InsKey)
    (r : LegacyFileRec) (rest : List ℕ) (hwf : wfRecLegacy r) :
    parseRecLegacy idt itab (encRecLegacy r ++ rest) =
      some (legacyOutcome idt itab r, rest) := by
  obtain ⟨h1, h2, h3, h4, hn1, hn2, hv1, hv2, hk1, hk2, hf1, hf2⟩ := hwf
  unfold parseRecLegacy
  rw [encRecLegacy]
  simp only [List.append_assoc, List.cons_append, List.nil_append]
  rw [readU64_enc _ _ hn1]
  dsimp only
  rw [readU64_enc _ _ hn2]
  dsimp only
  rw [readBlock_enc _ _ h1]
  dsimp only
  rw [readBlock_enc _ _ h2]
  dsimp only
  rw [readByte_enc]
  dsimp only
  rw [readByte_enc]
  dsimp only
  rw [readByte_enc]
  dsimp only
  rw [readS64_enc _ _ hv1 hv2]
  dsimp only
  rw [fread_two]
  dsimp only
  rw [readIdF_enc _ _ _ h3 h4]
  dsimp only
  rw [readS64_enc _ _ hk1 hk2]
  dsimp only
  rw [readS64_enc _ _ hf1 hf2]
  dsimp only
  rw [readByte_enc]
  dsimp only
  simp only [List.headI, List.drop]
  simp only [legacyOutcome, decodeInst, ne_eq, decide_not]
  generalize legacyMatch idt itab
      { insno1 := r.insno1, insno2 := r.insno2, instCache1 := r.cache1,
        instCache2 := r.cache2, notenum := r.notenum,
        real4op := !decide (r.real4opB = 0),
        pseudo4op := !decide (r.pseudo4opB = 0),
        voice2_fine_tune := (r.voice2detune : ℚ) / 1000000 }
      r.id_f0 r.id_f1 (!decide (r.found_f0B = 0)) (!decide (r.found_f1B = 0)) = outcome
  cases outcome <;> rfl

/-- The legacy record loop stops at the first record that fails to parse and
keeps exactly the contributions of the records before it. -/
theorem loadLoopLegacy_stops (idt : List (InsData × ℕ)) (itab : List InsKey)
    (rs : List LegacyFileRec) (tail : List ℕ) (acc : List (InsKey × CacheRec)) (fuel : ℕ)
    (hfuel : rs.length < fuel)
    (hwf : ∀ r ∈ rs, wfRecLegacy r)
    (htail : parseRecLegacy idt itab tail = none) :
    loadLoopLegacy idt itab fuel ((rs.map encRecLegacy).flatten ++ tail) acc =
      legacyFold idt itab rs acc := by
  induction rs generalizing acc fuel with
  | nil =>
    obtain ⟨f, rfl⟩ : ∃ f, fuel = f + 1 := ⟨fuel - 1, by omega⟩
    simp [loadLoopLegacy, htail, legacyFold]
  | cons r rs ih =>
    obtain ⟨f, rfl⟩ : ∃ f, fuel = f + 1 := ⟨fuel - 1, by omega⟩
    simp only [List.map_cons, List.flatten_cons, List.append_assoc, loadLoopLegacy]
    rw [parseRecLegacy_enc idt itab r _ (hwf r (by simp))]
    cases hout : legacyOutcome idt itab r with
    | some kv =>
      obtain ⟨k, v⟩ := kv
      dsimp only
      rw [ih (alInsert acc k v) f (by simpa using hfuel) fun q hq => hwf q (by simp [hq])]
      simp [legacyFold, hout]
    | none =>
      dsimp only
      rw [ih acc f (by simpa using hfuel) fun q hq => hwf q (by simp [hq])]
      simp [legacyFold, hout]

theorem loadCache_absent (idt : List (InsData × ℕ)) (itab : List InsKey) :
    loadCache idt itab none = [] := rfl

theorem loadCache_short (idt : List (InsData × ℕ)) (itab : List InsKey) (l : List ℕ)
    (h : l.length < 32) : loadCache idt itab (some l) = [] := by
  unfold loadCache fread
  simp [show ¬(32 ≤ l.length) by omega]

theorem loadCache_badmagic (idt : List (InsData × ℕ)) (itab : List InsKey) (l : List ℕ)
    (h : l.take 32 ≠ magicV1) : loadCache idt itab (some l) = [] := by
  unfold loadCache fread
  by_cases h32 : 32 ≤ l.length
  · simp [h32, h]
  · simp [h32]

theorem length_le_flatten_enc (rs : List LegacyFileRec) :
    rs.length ≤ ((rs.map encRecLegacy).flatten).length := by
  induction rs with
  | nil => simp
  | cons r rs ih =>
    simp only [List.map_cons, List.flatten_cons, List.length_append, List.length_cons]
    have hpos : 0 < (encRecLegacy r).length := by
      simp [encRecLegacy]
    omega

theorem loadCache_file (idt : List (InsData × ℕ)) (itab : List InsKey)
    (rs : List LegacyFileRec) (tail : List ℕ)
    (hwf : ∀ r ∈ rs, wfRecLegacy r)
    (htail : parseRecLegacy idt itab tail = none) :
    loadCache idt itab (some (magicV1 ++ ((rs.map encRecLegacy).flatten ++ tail))) =
      legacyFold idt itab rs [] := by
  unfold loadCache
  dsimp only
  rw [fread_exact magicV1 _ 32 rfl]
  dsimp only
  simp only [Bool.not_true, Bool.false_eq_true, if_false, ne_eq, not_true_eq_false,
    ite_false]
  refine loadLoopLegacy_stops idt itab rs tail [] _ ?_ hwf htail
  have h := length_le_flatten_enc rs
  have h2 : ((rs.map encRecLegacy).flatten ++ tail).length =
      (rs.map encRecLegacy).flatten.length + tail.length := List.length_append _ _
  omega

theorem loadCacheX_file (ms : List (OperatorsKey × CacheRec)) (tail : List ℕ) (n : ℕ)
    (hms : ms.length < n) (hn : n < 4294967296)
    (hwf : ∀ p ∈ ms, wfEntryX p)
    (htail : parseRecX tail = none) :
    loadCacheX (some (magicX ++ (le32n n ++
        ((ms.map fun p => encRecX p.1 p.2).flatten ++ tail)))) =
      ms.foldl (fun a p => alInsert a p.1 p.2) [] := by
  rw [loadCacheX_header n hn]
  exact loadLoopX_stops ms [] tail n hms (fun p hp => hwf p hp) htail

/-- C6 (amended): cache loading is never fatal.  An absent file, a short
magic or a mismatched magic give an empty cache in both loaders.  When a
record partway through the file is malformed, the loop stops at that
record; the compact loader keeps exactly the records parsed before it
(first-wins for a duplicated key), while the legacy loader keeps, of the
records parsed before it, exactly those that also revalidate against the
current instrument tables. -/
theorem cacheLoad_never_fatal_partial_recovery :
    (∀ (idt : List (InsData × ℕ)) (itab : List InsKey),
      loadCache idt itab none = [] ∧ loadCacheX none = []) ∧
    (∀ (idt : List (InsData × ℕ)) (itab : List InsKey) (l : List ℕ), l.length < 32 →
      loadCache idt itab (some l) = [] ∧ loadCacheX (some l) = []) ∧
    (∀ (idt : List (InsData × ℕ)) (itab : List InsKey) (l : List ℕ),
      l.take 32 ≠ magicV1 → loadCache idt itab (some l) = []) ∧
    (∀ l : List ℕ, l.take 32 ≠ magicX → loadCacheX (some l) = []) ∧
    (∀ (ms : List (OperatorsKey × CacheRec)) (tail : List ℕ) (n : ℕ),
      ms.length < n → n < 4294967296 → (∀ p ∈ ms, wfEntryX p) →
      parseRecX tail = none →
      loadCacheX (some (magicX ++ (le32n n ++
          ((ms.map fun p => encRecX p.1 p.2).flatten ++ tail)))) =
        ms.foldl (fun a p => alInsert a p.1 p.2) []) ∧
    (∀ (idt : List (InsData × ℕ)) (itab : List InsKey)
      (rs : List LegacyFileRec) (tail : List ℕ),
      (∀ r ∈ rs, wfRecLegacy r) → parseRecLegacy idt itab tail = none →
      loadCache idt itab (some (magicV1 ++ ((rs.map encRecLegacy).flatten ++ tail))) =
        legacyFold idt itab rs []) :=
  ⟨fun idt itab => ⟨loadCache_absent idt itab, loadCacheX_absent⟩,
   fun idt itab l h => ⟨loadCache_short idt itab l h, loadCacheX_short l h⟩,
   fun idt itab l h => loadCache_badmagic idt itab l h,
   fun l h => loadCacheX_badmagic l h,
   fun ms tail n h1 h2 h3 h4 => loadCacheX_file ms tail n h1 h2 h3 h4,
   fun idt itab rs tail h1 h2 => loadCache_file idt itab rs tail h1 h2⟩

/-- C6 counterexample: a legacy cache file whose first record parses
completely (its stored found flags are both clear, so revalidation skips
it) followed by a malformed record.  The loader stops at the malformed
record but keeps nothing, although one record was successfully parsed
before it. -/
theorem loadCache_drops_parsed_record :
    parseRecLegacy [] [] (encRecLegacy exLegacyRec ++ [7]) = some (none, [7]) ∧
    parseRecLegacy [] [] [7] = none ∧
    loadCache [] [] (some (magicV1 ++ (encRecLegacy exLegacyRec ++ [7]))) = [] := by
  refine ⟨?_, ?_, ?_⟩ <;> decide

/-- Witness for the amended C6 theorem: a one-record compact cache followed
by a malformed byte is recovered up to the malformed record. -/
theorem cacheLoad_never_fatal_partial_recovery_witness :
    parseRecX [9] = none ∧
    loadCacheX (some (magicX ++ (le32n 5 ++
        ((exMapPos.map fun p => encRecX p.1 p.2).flatten ++ [9])))) =
      exMapPos.foldl (fun a p => alInsert a p.1 p.2) [] :=
  ⟨by decide,
    cacheLoad_never_fatal_partial_recovery.2.2.2.2.1 exMapPos [9] 5
      (by decide) (by decide) (by decide) (by decide)⟩

/-! ## Frequency-encoding lemmas (noteOn) -/

theorem hzHalve_frac_lt (hz : ℚ) (x count : ℕ) : (hzHalve hz x count).1 < 1023.5 := by
  induction hz, x, count using hzHalve.induct with
  | case1 hz x count h ih => rw [hzHalve, dif_pos h]; exact ih
  | case2 hz x count h =>
    rw [hzHalve, dif_neg h]
    push_neg at h
    exact h

theorem hzHalve_count_le (k : ℕ) : ∀ (hz : ℚ) (x count : ℕ), hz < 1023.5 * 2 ^ k →
    (hzHalve hz x count).2.2 ≤ count + k := by
  induction k with
  | zero =>
    intro hz x count h
    have h' : ¬((1023.5 : ℚ) ≤ hz) := by
      intro hc
      rw [pow_zero, mul_one] at h
      linarith
    rw [hzHalve, dif_neg h']
    simp
  | succ k ih =>
    intro hz x count h
    rw [hzHalve]
    split
    · have h2 : hz / 2 < 1023.5 * 2 ^ k := by
        rw [pow_succ] at h
        linarith
      have := ih (hz / 2) (x + 1024) (count + 1) h2
      omega
    · dsimp only
      omega

theorem hzHalve_x_eq (hz : ℚ) (x count : ℕ) :
    (hzHalve hz x count).2.1 + 1024 * count = x + 1024 * (hzHalve hz x count).2.2 := by
  induction hz, x, count using hzHalve.induct with
  | case1 hz x count h ih =>
    rw [hzHalve, dif_pos h]
    omega
  | case2 hz x count h =>
    rw [hzHalve, dif_neg h]

/-- C7: the frequency encoder is a total function of the incoming hertz
value (so the halving loop terminates on every input); hertz above 131071
is clamped to 131071; under the clamp the loop performs at most 8 halvings;
the final fraction is below 1023.5; and the block/fraction word is bounded
by 0x2000 + 8 * 0x400.  The statement quantifies over every rational hertz
value, which covers every value 172.00093 * exp(0.057762265 * (note +
offset)) can take for notes in [0,127] and offsets in [-128,127]. -/
theorem noteOn_freq_encoding (hz : ℚ) :
    noteOnClamp hz = min hz 131071 ∧
    (noteOnEncode hz).1 < 1023.5 ∧
    (noteOnEncode hz).2.2 ≤ 8 ∧
    (noteOnEncode hz).2.1 ≤ 8192 + 1024 * 8 := by
  have hclamp : noteOnClamp hz = min hz 131071 := by
    rw [noteOnClamp]
    rcases le_or_lt hz 131071 with h | h
    · rw [if_neg (not_lt.mpr h), min_eq_left h]
    · rw [if_pos h, min_eq_right h.le]
  have hle : noteOnClamp hz ≤ 131071 := by
    rw [hclamp]
    exact min_le_right _ _
  have hcount : (noteOnEncode hz).2.2 ≤ 8 := by
    have hb : noteOnClamp hz < 1023.5 * 2 ^ 8 := by
      have h28 : ((1023.5 : ℚ)) * 2 ^ 8 = 262016 := by norm_num
      rw [h28]
      linarith
    have := hzHalve_count_le 8 (noteOnClamp hz) 8192 0 hb
    simpa [noteOnEncode] using this
  refine ⟨hclamp, hzHalve_frac_lt _ _ _, hcount, ?_⟩
  have hx := hzHalve_x_eq (noteOnClamp hz) 8192 0
  simp only [noteOnEncode] at hcount ⊢
  omega

/-! ## Worker callback lemmas -/

/-- C5 (amended): on a cache hit, the callback performs no chip emulation
(its result does not depend on the measuring function at all), increments
the cache-hit counter exactly once, increments the completed counter
exactly once, releases exactly one capacity slot, and leaves the cache
unchanged; in the indexed branch it copies the cached attack and release ms
into the instrument record and ORs the blank flag bit in exactly when the
cached silence flag is set (instFlags is otherwise untouched); in the
legacy branch nothing is copied into any instrument record. -/
theorem callback_cache_hit (blankBit : ℕ) (measure : InstRec → CacheRec)
    (key : OperatorsKey) (st : SchedState) (r : InstRec) (di : CacheRec)
    (hhit : alFind st.cache key = some di)
    (measureL : Unit → CacheRec) (keyL : InsKey) (stL : SchedStateL)
    (hhitL : (alFind stL.cache keyL).isSome = true) :
    (callback blankBit measure key st r).emulated = false ∧
    (∀ measure2, callback blankBit measure2 key st r =
      callback blankBit measure key st r) ∧
    (callback blankBit measure key st r).state.cache_matches = st.cache_matches + 1 ∧
    (callback blankBit measure key st r).state.done = st.done + 1 ∧
    (callback blankBit measure key st r).semaphoreNotify = 1 ∧
    (callback blankBit measure key st r).state.cache = st.cache ∧
    (callback blankBit measure key st r).insRec.delay_on_ms = di.ms_sound_kon ∧
    (callback blankBit measure key st r).insRec.delay_off_ms = di.ms_sound_koff ∧
    (callback blankBit measure key st r).insRec.instFlags =
      (if di.nosound then r.instFlags ||| blankBit else r.instFlags) ∧
    (callbackLegacy measureL keyL stL).emulated = false ∧
    (∀ measure2, callbackLegacy measure2 keyL stL = callbackLegacy measureL keyL stL) ∧
    (callbackLegacy measureL keyL stL).state.cache_matches = stL.cache_matches + 1 ∧
    (callbackLegacy measureL keyL stL).state.done = stL.done + 1 ∧
    (callbackLegacy measureL keyL stL).semaphoreNotify = 1 ∧
    (callbackLegacy measureL keyL stL).state.cache = stL.cache := by
  obtain ⟨dL, hdL⟩ := Option.isSome_iff_exists.mp hhitL
  refine ⟨?_, ?_, ?_, ?_, ?_, ?_, ?_, ?_, ?_, ?_, ?_, ?_, ?_, ?_, ?_⟩ <;>
    simp [callback, callbackLegacy, hhit, hdL]

/-- C5 counterexample: the cached silence flag is not copied into the
record, only ORed in.  With the blank flag bit (value 4 here) already set
in the instrument record and a cached result whose silence flag is false,
the record still carries the blank bit after the hit, so the record does
not reflect the cached flag. -/
theorem callback_hit_does_not_copy_silence_flag :
    alFind [(exKeyX, (⟨5, 6, false⟩ : CacheRec))] exKeyX = some ⟨5, 6, false⟩ ∧
    (callback 4 (fun _ => ⟨0, 0, true⟩) exKeyX ⟨[(exKeyX, ⟨5, 6, false⟩)], 0, 0⟩
      ⟨0, 0, 4⟩).insRec.instFlags = 4 :=
  ⟨by decide, by decide⟩

/-- Witness for the amended C5 theorem at concrete one-entry caches. -/
theorem callback_cache_hit_witness :
    alFind [(exKeyX, (⟨7, 8, true⟩ : CacheRec))] exKeyX = some ⟨7, 8, true⟩ ∧
    (alFind [(exInsKey, (⟨1, 2, false⟩ : CacheRec))] exInsKey).isSome = true ∧
    (callback 1 (fun _ => ⟨0, 0, false⟩) exKeyX ⟨[(exKeyX, ⟨7, 8, true⟩)], 2, 3⟩
      ⟨0, 0, 0⟩).emulated = false ∧
    (callbackLegacy (fun _ => ⟨0, 0, false⟩) exInsKey
      ⟨[(exInsKey, ⟨1, 2, false⟩)], 4, 5⟩).state.cache_matches = 4 + 1 :=
  ⟨by decide, by decide,
   (callback_cache_hit 1 (fun _ => ⟨0, 0, false⟩) exKeyX ⟨[(exKeyX, ⟨7, 8, true⟩)], 2, 3⟩
      ⟨0, 0, 0⟩ ⟨7, 8, true⟩ (by decide) (fun _ => ⟨0, 0, false⟩) exInsKey
      ⟨[(exInsKey, ⟨1, 2, false⟩)], 4, 5⟩ (by decide)).1,
   (callback_cache_hit 1 (fun _ => ⟨0, 0, false⟩) exKeyX ⟨[(exKeyX, ⟨7, 8, true⟩)], 2, 3⟩
      ⟨0, 0, 0⟩ ⟨7, 8, true⟩ (by decide) (fun _ => ⟨0, 0, false⟩) exInsKey
      ⟨[(exInsKey, ⟨1, 2, false⟩)], 4, 5⟩ (by decide)).2.2.2.2.2.2.2.2.2.2.2.1⟩

/-! ## Envelope analyzer: generic lemmas -/

theorem genSamples_len {σ : Type} (ops : SynthOps σ) (n : ℕ) (s : σ) :
    (genSamples ops n s).2.length = n := by
  induction n generalizing s with
  | zero => rfl
  | succ n ih => simp [genSamples, ih]

theorem genSamples_add {σ : Type} (ops : SynthOps σ) (m n : ℕ) (s : σ) :
    genSamples ops (m + n) s =
      ((genSamples ops n (genSamples ops m s).1).1,
       (genSamples ops m s).2 ++ (genSamples ops n (genSamples ops m s).1).2) := by
  induction m generalizing s with
  | zero => simp [genSamples]
  | succ m ih =>
    have h : m + 1 + n = (m + n) + 1 := by omega
    rw [h]
    simp only [genSamples]
    rw [ih (ops.gen1 s).1]
    simp

theorem streamOps_gen1 (f : ℕ → ℤ) (m : ℕ) : (streamOps f).gen1 m = (m + 1, f m) := rfl

theorem genSamples_stream (f : ℕ → ℤ) : ∀ (n m : ℕ),
    genSamples (streamOps f) n m = (m + n, (List.range' m n).map f) := by
  intro n
  induction n with
  | zero =>
    intro m
    simp [genSamples]
  | succ n ih =>
    intro m
    simp only [genSamples, streamOps_gen1]
    rw [ih (m + 1), List.range'_succ]
    simp
    omega

theorem foldl_min_replicate (n : ℕ) (a c : ℤ) (hn : n ≠ 0) :
    (List.replicate n c).foldl min a = min a c := by
  induction n generalizing a with
  | zero => exact absurd rfl hn
  | succ n ih =>
    rw [List.replicate_succ, List.foldl_cons]
    cases n with
    | zero => simp
    | succ n =>
      rw [ih (min a c) (by omega), min_assoc, min_self]

theorem foldl_max_replicate (n : ℕ) (a c : ℤ) (hn : n ≠ 0) :
    (List.replicate n c).foldl max a = max a c := by
  induction n generalizing a with
  | zero => exact absurd rfl hn
  | succ n ih =>
    rw [List.replicate_succ, List.foldl_cons]
    cases n with
    | zero => simp
    | succ n =>
      rw [ih (max a c) (by omega), max_assoc, max_self]

theorem map_const_range' (m n : ℕ) (c : ℤ) :
    (List.range' m n).map (fun _ => c) = List.replicate n c := by
  rw [List.map_const']
  simp

/-! ## The two concrete runs: step and loop lemmas -/

set_option maxRecDepth 8000 in
theorem attackBody_zeroTen :
    attackBody (streamOps fun _ => 10) (fun _ => 1) 0 (initState 0) =
      ({ stateTen 1 with windows_passed_on := 0 }, 1) := by
  have hgen : genSamples (streamOps fun _ => (10 : ℤ)) 331 0 =
      (331, List.replicate 331 10) := by
    rw [genSamples_stream, map_const_range']
  unfold attackBody
  rw [show (initState 0 : MeasState ℕ).chip = 0 from rfl, hgen]
  simp only [initState, stateTen]
  rw [foldl_min_replicate _ _ _ (by norm_num), foldl_max_replicate _ _ _ (by norm_num)]
  simp only [if_true]
  rw [if_pos (by norm_num : (1 : ℚ) > 0)]
  have hs : histSize ([] ++ List.replicate 331 (10 : ℤ)) = min 331 4972 := by
    simp only [List.nil_append, histSize, histCap, List.length_replicate]
  simp only [List.nil_append, hs, show (331 * 1 : ℕ) = 331 from by norm_num,
    List.range_succ, List.range_zero, List.map_nil, List.map_cons, List.map_append,
    show (0 : ℤ) ⊓ 10 = 0 from by decide, show (0 : ℤ) ⊔ 10 = 10 from by decide]
  rfl

set_option maxRecDepth 8000 in
theorem attackBody_steadyTen (k : ℕ) (hk : 1 ≤ k) :
    attackBody (streamOps fun _ => 10) (fun _ => 1) k (stateTen k) =
      ({ stateTen (k + 1) with windows_passed_on := k }, 1) := by
  have hgen : genSamples (streamOps fun _ => (10 : ℤ)) 331 (331 * k) =
      (331 * k + 331, List.replicate 331 10) := by
    rw [genSamples_stream, map_const_range']
  unfold attackBody
  rw [show (stateTen k).chip = 331 * k from rfl, hgen]
  simp only [stateTen]
  rw [foldl_min_replicate _ _ _ (by norm_num), foldl_max_replicate _ _ _ (by norm_num)]
  have hh : List.replicate (331 * k) (10 : ℤ) ++ List.replicate 331 10 =
      List.replicate (331 * (k + 1)) 10 := by
    rw [← List.replicate_add]
    ring_nf
  have hs : histSize (List.replicate (331 * (k + 1)) (10 : ℤ)) = min (331 * (k + 1)) 4972 := by
    simp only [histSize, histCap, List.length_replicate]
  have ht : ((List.range k).map fun i => min (331 * (i + 1)) 4972) ++ [min (331 * (k + 1)) 4972] =
      (List.range (k + 1)).map fun i => min (331 * (i + 1)) 4972 := by
    rw [List.range_succ, List.map_append, List.map_singleton]
  simp only [hh, hs, show 331 * k + 331 = 331 * (k + 1) from by ring,
    show (0 : ℤ) ⊓ 10 = 0 from by decide, show (10 : ℤ) ⊔ 10 = 10 from by decide]
  rw [if_neg (by omega : ¬(k = 0))]
  rw [if_neg (by norm_num : ¬((1 : ℚ) > 1))]
  rw [if_neg (by norm_num : ¬(True ∧ (1 : ℚ) ≤ 1 * (8 / 1000)))]
  dsimp only
  rw [if_neg (by norm_num : ¬((1 : ℚ) > 1))]
  simp only [ht]

theorem attackLoop_succ {σ : Type} (ops : SynthOps σ) (rms : List ℤ → ℚ)
    (period fuel : ℕ) (st : MeasState σ) :
    attackLoop ops rms period (fuel + 1) st =
      (let b := attackBody ops rms period st
       if 900 < period ∧ (b.2 < b.1.highest_sofar * (8 / 1000) ∨
           (-1 ≤ b.1.sound_min ∧ b.1.sound_max ≤ 1)) then
         { b.1 with brokeOn := true }
       else
         attackLoop ops rms (period + 1) fuel
           { b.1 with windows_passed_on := b.1.windows_passed_on + 1 }) := rfl

theorem releaseLoop_succ {σ : Type} (ops : SynthOps σ) (rms : List ℤ → ℚ)
    (period fuel : ℕ) (st : MeasState σ) :
    releaseLoop ops rms period (fuel + 1) st =
      (let b := releaseBody ops rms period st
       if b.2 < b.1.highest_sofar * (2 / 10) then b.1
       else if 900 < period ∧ (-1 ≤ b.1.sound_min ∧ b.1.sound_max ≤ 1) then b.1
       else
         releaseLoop ops rms (period + 1) fuel
           { b.1 with windows_passed_off := b.1.windows_passed_off + 1 }) := rfl

theorem replayLoop_succ {σ : Type} (ops : SynthOps σ) (pt period fuel : ℕ)
    (c : σ) (h : List ℤ) (cnt : ℕ) :
    replayLoop ops pt period (fuel + 1) c h cnt =
      (if period < pt ∨ period = 0 then
        let g := genSamples ops 331 c
        replayLoop ops pt (period + 1) fuel g.1 (h ++ g.2) (cnt + 1)
      else (c, h, cnt)) := rfl

set_option maxRecDepth 8000 in
theorem attackLoopTen (fuel : ℕ) : ∀ k : ℕ, 1 ≤ k →
    attackLoop (streamOps fun _ => 10) (fun _ => 1) k fuel (stateTen k) =
      stateTen (k + fuel) := by
  induction fuel with
  | zero => intro k _; rfl
  | succ fuel ih =>
    intro k hk
    rw [show k + (fuel + 1) = (k + 1) + fuel from by omega]
    simp only [attackLoop]
    rw [attackBody_steadyTen k hk]
    dsimp only [stateTen]
    rw [if_neg (by norm_num : ¬(900 < k ∧ ((1 : ℚ) < 1 * (8 / 1000) ∨
      ((-1 : ℤ) ≤ 0 ∧ (10 : ℤ) ≤ 1))))]
    exact ih (k + 1) (by omega)

set_option maxRecDepth 8000 in
theorem attackRunTen :
    attackLoop (streamOps fun _ => 10) (fun _ => 1) 0 6000 (initState 0) =
      stateTen 6000 := by
  rw [show (6000 : ℕ) = 5999 + 1 from rfl, attackLoop_succ]
  rw [attackBody_zeroTen]
  dsimp only [stateTen]
  rw [if_neg (by norm_num : ¬(900 < 0 ∧ ((1 : ℚ) < 1 * (8 / 1000) ∨
    ((-1 : ℤ) ≤ 0 ∧ (10 : ℤ) ≤ 1))))]
  exact attackLoopTen 5999 1 (by norm_num)

set_option maxRecDepth 8000 in
theorem releaseBody_ten (p : ℕ) :
    releaseBody (streamOps fun _ => 10) (fun _ => 1) p (stateTenR p) =
      ({ stateTenR (p + 1) with windows_passed_off := p }, 1) := by
  have hgen : genSamples (streamOps fun _ => (10 : ℤ)) 331 (331 * (6000 + p)) =
      (331 * (6000 + p) + 331, List.replicate 331 10) := by
    rw [genSamples_stream, map_const_range']
  unfold releaseBody
  rw [show (stateTenR p).chip = 331 * (6000 + p) from rfl, hgen]
  simp only [stateTenR, stateTen]
  rw [foldl_min_replicate _ _ _ (by norm_num), foldl_max_replicate _ _ _ (by norm_num)]
  have hh : List.replicate (331 * (6000 + p)) (10 : ℤ) ++ List.replicate 331 10 =
      List.replicate (331 * (6000 + (p + 1))) 10 := by
    rw [← List.replicate_add]
    ring_nf
  have hs : histSize (List.replicate (331 * (6000 + (p + 1))) (10 : ℤ)) =
      min (331 * (6000 + (p + 1))) 4972 := by
    simp only [histSize, histCap, List.length_replicate]
  have hv : min (331 * (6000 + (p + 1))) 4972 = 4972 := by
    have h1 : 331 * 6001 ≤ 331 * (6000 + (p + 1)) :=
      Nat.mul_le_mul_left 331 (by omega)
    omega
  have ht : (((List.range 6000).map fun i => min (331 * (i + 1)) 4972) ++
        List.replicate p 4972) ++ [(4972 : ℕ)] =
      ((List.range 6000).map fun i => min (331 * (i + 1)) 4972) ++
        List.replicate (p + 1) 4972 := by
    rw [List.append_assoc, ← List.replicate_succ']
  simp only [hh, hs, hv, show 331 * (6000 + p) + 331 = 331 * (6000 + (p + 1)) from by ring,
    show (0 : ℤ) ⊓ 10 = 0 from by decide, show (10 : ℤ) ⊔ 10 = 10 from by decide]
  rw [if_neg (by norm_num : ¬(True ∧ (1 : ℚ) ≤ 1 * (2 / 10)))]
  simp only [ht]

set_option maxRecDepth 8000 in
theorem releaseLoopTen (fuel : ℕ) : ∀ p : ℕ,
    releaseLoop (streamOps fun _ => 10) (fun _ => 1) p fuel (stateTenR p) =
      stateTenR (p + fuel) := by
  induction fuel with
  | zero => intro p; rfl
  | succ fuel ih =>
    intro p
    rw [show p + (fuel + 1) = (p + 1) + fuel from by omega]
    simp only [releaseLoop]
    rw [releaseBody_ten p]
    dsimp only [stateTenR, stateTen]
    rw [if_neg (by norm_num : ¬((1 : ℚ) < 1 * (2 / 10)))]
    rw [if_neg (by norm_num : ¬(900 < p ∧ ((-1 : ℤ) ≤ 0 ∧ (10 : ℤ) ≤ 1)))]
    exact ih (p + 1)

theorem stateTenR_zero : stateTenR 0 = stateTen 6000 := by
  simp only [stateTenR, List.replicate_zero, List.append_nil]
  rfl

set_option maxRecDepth 8000 in
theorem attackStTen :
    attackStOf (streamOps fun _ => 10) (fun _ => 1) 0 = stateTen 6000 := by
  unfold attackStOf
  rw [show (streamOps fun _ => (10 : ℤ)).noteOn ((streamOps fun _ => (10 : ℤ)).setInstrument
    ((streamOps fun _ => (10 : ℤ)).resetChip 0)) = 0 from rfl]
  exact attackRunTen

set_option maxRecDepth 8000 in
theorem quarterTen : quarterOf (streamOps fun _ => 10) (fun _ => 1) 0 = 6000 := by
  unfold quarterOf
  rw [attackStTen]
  rw [if_neg (show ¬((stateTen 6000).quarter_found = true) from by
    rw [show (stateTen 6000).quarter_found = false from rfl]; simp)]
  rfl

set_option maxRecDepth 8000 in
theorem stBTen : stBOf (streamOps fun _ => 10) (fun _ => 1) 0 = (stateTen 6000, 0) := by
  unfold stBOf
  rw [attackStTen]
  rw [if_pos (show 6000 ≤ (stateTen 6000).windows_passed_on from le_refl _)]
  rfl

set_option maxRecDepth 8000 in
theorem releaseStTen :
    releaseStOf (streamOps fun _ => 10) (fun _ => 1) 0 = stateTenR 9000 := by
  unfold releaseStOf
  rw [stBTen]
  rw [show ((stateTen 6000, 0) : MeasState ℕ × ℕ).1 = stateTen 6000 from rfl]
  rw [← stateTenR_zero]
  exact releaseLoopTen 9000 0

set_option maxRecDepth 8000 in
theorem runConstTen_eq :
    runConstTen =
      { attackSt := stateTen 6000
        quarter := 6000
        replayCount := 0
        releaseStart := stateTen 6000
        releaseSt := stateTenR 9000
        result :=
          { ms_sound_kon := 40000
            ms_sound_koff := 0
            nosound := true
            begin_amplitude := 1
            peak_amplitude_value := 1
            peak_amplitude_time := 0
            quarter_amplitude_time := 6000
            keyoff_out_time := 0 } } := by
  unfold runConstTen measureDurationsIndexed measureDurations
  rw [attackStTen, quarterTen, stBTen, releaseStTen]
  simp only [stateTenR, stateTen]
  norm_num

set_option maxRecDepth 8000 in
theorem attackBody_zeroOne :
    attackBody (streamOps fun _ => 1) (fun _ => 353 / 1000) 0 (initState 0) =
      ({ stateOne 1 with windows_passed_on := 0 }, 353 / 1000) := by
  have hgen : genSamples (streamOps fun _ => (1 : ℤ)) 331 0 =
      (331, List.replicate 331 1) := by
    rw [genSamples_stream, map_const_range']
  unfold attackBody
  rw [show (initState 0 : MeasState ℕ).chip = 0 from rfl, hgen]
  simp only [initState, stateOne]
  rw [foldl_min_replicate _ _ _ (by norm_num), foldl_max_replicate _ _ _ (by norm_num)]
  simp only [if_true]
  rw [if_pos (by norm_num : (353 / 1000 : ℚ) > 0)]
  have hs : histSize ([] ++ List.replicate 331 (1 : ℤ)) = min 331 4972 := by
    simp only [List.nil_append, histSize, histCap, List.length_replicate]
  simp only [List.nil_append, hs, show (331 * 1 : ℕ) = 331 from by norm_num,
    List.range_succ, List.range_zero, List.map_nil, List.map_cons, List.map_append,
    show (0 : ℤ) ⊓ 1 = 0 from by decide, show (0 : ℤ) ⊔ 1 = 1 from by decide]
  rfl

set_option maxRecDepth 8000 in
theorem attackBody_steadyOne (k : ℕ) (hk : 1 ≤ k) :
    attackBody (streamOps fun _ => 1) (fun _ => 353 / 1000) k (stateOne k) =
      ({ stateOne (k + 1) with windows_passed_on := k }, 353 / 1000) := by
  have hgen : genSamples (streamOps fun _ => (1 : ℤ)) 331 (331 * k) =
      (331 * k + 331, List.replicate 331 1) := by
    rw [genSamples_stream, map_const_range']
  unfold attackBody
  rw [show (stateOne k).chip = 331 * k from rfl, hgen]
  simp only [stateOne]
  rw [foldl_min_replicate _ _ _ (by norm_num), foldl_max_replicate _ _ _ (by norm_num)]
  have hh : List.replicate (331 * k) (1 : ℤ) ++ List.replicate 331 1 =
      List.replicate (331 * (k + 1)) 1 := by
    rw [← List.replicate_add]
    ring_nf
  have hs : histSize (List.replicate (331 * (k + 1)) (1 : ℤ)) = min (331 * (k + 1)) 4972 := by
    simp only [histSize, histCap, List.length_replicate]
  have ht : ((List.range k).map fun i => min (331 * (i + 1)) 4972) ++ [min (331 * (k + 1)) 4972] =
      (List.range (k + 1)).map fun i => min (331 * (i + 1)) 4972 := by
    rw [List.range_succ, List.map_append, List.map_singleton]
  simp only [hh, hs, show 331 * k + 331 = 331 * (k + 1) from by ring,
    show (0 : ℤ) ⊓ 1 = 0 from by decide, show (1 : ℤ) ⊔ 1 = 1 from by decide]
  rw [if_neg (by omega : ¬(k = 0))]
  rw [if_neg (by norm_num : ¬((353 / 1000 : ℚ) > 353 / 1000))]
  rw [if_neg (by norm_num : ¬(True ∧ (353 / 1000 : ℚ) ≤ 353 / 1000 * (8 / 1000)))]
  dsimp only
  rw [if_neg (by norm_num : ¬((353 / 1000 : ℚ) > 353 / 1000))]
  simp only [ht]

set_option maxRecDepth 8000 in
theorem attackLoopOne (fuel : ℕ) : ∀ k : ℕ, 1 ≤ k → k ≤ 901 → 901 - k < fuel →
    attackLoop (streamOps fun _ => 1) (fun _ => 353 / 1000) k fuel (stateOne k) =
      stateOneBroke := by
  induction fuel with
  | zero => intro k _ _ hf; omega
  | succ fuel ih =>
    intro k hk hk901 hf
    simp only [attackLoop]
    rw [attackBody_steadyOne k hk]
    dsimp only [stateOne]
    by_cases hk9 : k = 901
    · subst hk9
      rw [if_pos (by norm_num : 900 < 901 ∧ ((353 / 1000 : ℚ) < 353 / 1000 * (8 / 1000) ∨
        ((-1 : ℤ) ≤ 0 ∧ (1 : ℤ) ≤ 1)))]
      rfl
    · rw [if_neg (fun hcon => absurd hcon.1 (by omega))]
      exact ih (k + 1) (by omega) (by omega) (by omega)

set_option maxRecDepth 8000 in
theorem attackRunOne :
    attackLoop (streamOps fun _ => 1) (fun _ => 353 / 1000) 0 6000 (initState 0) =
      stateOneBroke := by
  rw [show (6000 : ℕ) = 5999 + 1 from rfl, attackLoop_succ]
  rw [attackBody_zeroOne]
  dsimp only [stateOne]
  rw [if_neg (by norm_num : ¬(900 < 0 ∧ ((353 / 1000 : ℚ) < 353 / 1000 * (8 / 1000) ∨
    ((-1 : ℤ) ≤ 0 ∧ (1 : ℤ) ≤ 1))))]
  exact attackLoopOne 5999 1 (by norm_num) (by norm_num) (by norm_num)

theorem replayLoop_stop {σ : Type} (ops : SynthOps σ) (pt period fuel : ℕ) (c : σ)
    (h : List ℤ) (cnt : ℕ) (h1 : pt ≤ period) (h2 : period ≠ 0) :
    replayLoop ops pt period fuel c h cnt = (c, h, cnt) := by
  cases fuel with
  | zero => rfl
  | succ fuel => rw [replayLoop_succ, if_neg (by omega : ¬(period < pt ∨ period = 0))]

theorem replayLoop_zero {σ : Type} (ops : SynthOps σ) (fuel : ℕ) (c : σ) (h : List ℤ)
    (cnt : ℕ) :
    replayLoop ops 0 0 (fuel + 1) c h cnt =
      ((genSamples ops 331 c).1, h ++ (genSamples ops 331 c).2, cnt + 1) := by
  rw [replayLoop_succ, if_pos (Or.inr rfl)]
  exact replayLoop_stop ops 0 1 fuel _ _ _ (by omega) (by omega)

theorem replayLoop_count {σ : Type} (ops : SynthOps σ) (pt : ℕ) (hpt : 1 ≤ pt) :
    ∀ (fuel period : ℕ) (c : σ) (h : List ℤ) (cnt : ℕ), period < pt → pt ≤ period + fuel →
      (replayLoop ops pt period fuel c h cnt).2.2 = cnt + (pt - period) := by
  intro fuel
  induction fuel with
  | zero => intro period c h cnt h1 h2; omega
  | succ fuel ih =>
    intro period c h cnt h1 h2
    rw [replayLoop_succ, if_pos (Or.inl h1)]
    by_cases hlt : period + 1 < pt
    · dsimp only
      rw [ih (period + 1) _ _ _ hlt (by omega)]
      omega
    · dsimp only
      rw [replayLoop_stop ops pt (period + 1) fuel _ _ _ (by omega) (by omega)]
      dsimp only
      omega

set_option maxRecDepth 16000 in
theorem measureDurations_eq {σ : Type} (ops : SynthOps σ) (rms : List ℤ → ℚ)
    (epsLo epsHi : ℤ) (s0 : σ) :
    measureDurations ops rms epsLo epsHi s0 =
      { attackSt := attackStOf ops rms s0
        quarter := quarterOf ops rms s0
        replayCount := (stBOf ops rms s0).2
        releaseStart := (stBOf ops rms s0).1
        releaseSt := releaseStOf ops rms s0
        result :=
          { ms_sound_kon := (quarterOf ops rms s0 * 1000 / 150 : ℕ)
            ms_sound_koff := ((releaseStOf ops rms s0).keyoff_out_time * 1000 / 150 : ℕ)
            nosound := decide ((releaseStOf ops rms s0).peak_amplitude_value < 1 / 2) ||
              (decide (epsLo ≤ (releaseStOf ops rms s0).sound_min) &&
               decide ((releaseStOf ops rms s0).sound_max ≤ epsHi))
            begin_amplitude := (releaseStOf ops rms s0).begin_amplitude
            peak_amplitude_value := (releaseStOf ops rms s0).peak_amplitude_value
            peak_amplitude_time := (releaseStOf ops rms s0).peak_amplitude_time
            quarter_amplitude_time := quarterOf ops rms s0
            keyoff_out_time := (releaseStOf ops rms s0).keyoff_out_time } } := rfl

set_option maxRecDepth 8000 in
theorem attackStOne :
    attackStOf (streamOps fun _ => 1) (fun _ => 353 / 1000) 0 = stateOneBroke := by
  unfold attackStOf
  rw [show (streamOps fun _ => (1 : ℤ)).noteOn ((streamOps fun _ => (1 : ℤ)).setInstrument
    ((streamOps fun _ => (1 : ℤ)).resetChip 0)) = 0 from rfl]
  exact attackRunOne

set_option maxRecDepth 8000 in
theorem measure_attackSt {σ : Type} (ops : SynthOps σ) (rms : List ℤ → ℚ)
    (epsLo epsHi : ℤ) (s0 : σ) :
    (measureDurations ops rms epsLo epsHi s0).attackSt = attackStOf ops rms s0 := by
  unfold measureDurations
  dsimp only

set_option maxRecDepth 8000 in
theorem measure_quarter {σ : Type} (ops : SynthOps σ) (rms : List ℤ → ℚ)
    (epsLo epsHi : ℤ) (s0 : σ) :
    (measureDurations ops rms epsLo epsHi s0).quarter = quarterOf ops rms s0 := by
  unfold measureDurations
  dsimp only

set_option maxRecDepth 8000 in
theorem measure_replayCount {σ : Type} (ops : SynthOps σ) (rms : List ℤ → ℚ)
    (epsLo epsHi : ℤ) (s0 : σ) :
    (measureDurations ops rms epsLo epsHi s0).replayCount = (stBOf ops rms s0).2 := by
  unfold measureDurations
  dsimp only

set_option maxRecDepth 8000 in
theorem measure_releaseStart {σ : Type} (ops : SynthOps σ) (rms : List ℤ → ℚ)
    (epsLo epsHi : ℤ) (s0 : σ) :
    (measureDurations ops rms epsLo epsHi s0).releaseStart = (stBOf ops rms s0).1 := by
  unfold measureDurations
  dsimp only

set_option maxRecDepth 8000 in
theorem measure_releaseSt {σ : Type} (ops : SynthOps σ) (rms : List ℤ → ℚ)
    (epsLo epsHi : ℤ) (s0 : σ) :
    (measureDurations ops rms epsLo epsHi s0).releaseSt = releaseStOf ops rms s0 := by
  unfold measureDurations
  dsimp only

set_option maxRecDepth 8000 in
theorem measure_nosound {σ : Type} (ops : SynthOps σ) (rms : List ℤ → ℚ)
    (epsLo epsHi : ℤ) (s0 : σ) :
    (measureDurations ops rms epsLo epsHi s0).result.nosound =
      (decide ((releaseStOf ops rms s0).peak_amplitude_value < 1 / 2) ||
        (decide (epsLo ≤ (releaseStOf ops rms s0).sound_min) &&
         decide ((releaseStOf ops rms s0).sound_max ≤ epsHi))) := by
  unfold measureDurations
  dsimp only

set_option maxRecDepth 8000 in
theorem runConstOne_attack : runConstOne.attackSt = stateOneBroke :=
  (measure_attackSt (streamOps fun _ => 1) (fun _ => 353 / 1000) (-1) 1 0).trans attackStOne

set_option maxRecDepth 8000 in
theorem runConstOne_quarter : runConstOne.quarter = 901 := by
  refine (measure_quarter (streamOps fun _ => 1) (fun _ => 353 / 1000) (-1) 1 0).trans ?_
  unfold quarterOf
  simp only [attackStOne]
  rw [if_neg (show ¬(stateOneBroke.quarter_found = true) from by
    rw [show stateOneBroke.quarter_found = false from rfl]; simp)]
  rfl

set_option maxRecDepth 8000 in
theorem replayOne :
    replayOf (streamOps fun _ => 1) (fun _ => 353 / 1000) 0 =
      (331, List.replicate 331 1, 1) := by
  unfold replayOf
  simp only [attackStOne, show stateOneBroke.peak_amplitude_time = 0 from rfl]
  rw [show (6000 : ℕ) = 5999 + 1 from rfl, replayLoop_zero]
  all_goals rw [show ((streamOps fun _ => (1 : ℤ)).noteOn ((streamOps fun _ => (1 : ℤ)).setInstrument
    ((streamOps fun _ => (1 : ℤ)).resetChip stateOneBroke.chip))) = 0 from rfl]
  all_goals rw [genSamples_stream, map_const_range']
  all_goals simp

set_option maxRecDepth 8000 in
theorem stBOne :
    stBOf (streamOps fun _ => 1) (fun _ => 353 / 1000) 0 = (stateOneStart, 1) := by
  unfold stBOf
  simp only [attackStOne, replayOne]
  rw [if_neg (show ¬(6000 ≤ stateOneBroke.windows_passed_on) from by
    rw [show stateOneBroke.windows_passed_on = 901 from rfl]; omega)]
  rfl

set_option maxRecDepth 8000 in
theorem runConstOne_replay : runConstOne.replayCount = 1 := by
  refine (measure_replayCount (streamOps fun _ => 1) (fun _ => 353 / 1000) (-1) 1 0).trans ?_
  rw [stBOne]

/-! ## Generic structural lemmas about the loops -/

set_option maxRecDepth 8000 in
theorem attackBody_proj {σ : Type} (ops : SynthOps σ) (rms : List ℤ → ℚ) (period : ℕ)
    (st : MeasState σ) :
    (attackBody ops rms period st).1.bodiesOn = st.bodiesOn + 1 ∧
    (attackBody ops rms period st).1.windows_passed_on = st.windows_passed_on ∧
    (attackBody ops rms period st).1.brokeOn = st.brokeOn ∧
    (attackBody ops rms period st).1.winTrace =
      st.winTrace ++ [histSize (st.hist ++ (genSamples ops 331 st.chip).2)] ∧
    (attackBody ops rms period st).1.sound_min =
      (genSamples ops 331 st.chip).2.foldl min st.sound_min ∧
    (attackBody ops rms period st).1.sound_max =
      (genSamples ops 331 st.chip).2.foldl max st.sound_max := by
  unfold attackBody
  dsimp only
  split_ifs <;> exact ⟨rfl, rfl, rfl, rfl, rfl, rfl⟩

theorem attackBody_peak_lt {σ : Type} (ops : SynthOps σ) (rms : List ℤ → ℚ) (period : ℕ)
    (st : MeasState σ) (h1 : period < 6000) (h2 : st.peak_amplitude_time < 6000) :
    (attackBody ops rms period st).1.peak_amplitude_time < 6000 := by
  unfold attackBody
  dsimp only
  split_ifs <;> dsimp only <;> omega

set_option maxRecDepth 8000 in
theorem releaseBody_proj {σ : Type} (ops : SynthOps σ) (rms : List ℤ → ℚ) (period : ℕ)
    (st : MeasState σ) :
    (releaseBody ops rms period st).1.winTrace =
      st.winTrace ++ [histSize (st.hist ++ (genSamples ops 331 st.chip).2)] ∧
    (releaseBody ops rms period st).1.sound_min =
      (genSamples ops 331 st.chip).2.foldl min st.sound_min ∧
    (releaseBody ops rms period st).1.sound_max =
      (genSamples ops 331 st.chip).2.foldl max st.sound_max := by
  unfold releaseBody
  dsimp only
  split_ifs <;> exact ⟨rfl, rfl, rfl⟩

set_option maxRecDepth 8000 in
theorem stBOf_proj {σ : Type} (ops : SynthOps σ) (rms : List ℤ → ℚ) (s0 : σ) :
    (stBOf ops rms s0).1.sound_min = (attackStOf ops rms s0).sound_min ∧
    (stBOf ops rms s0).1.sound_max = (attackStOf ops rms s0).sound_max ∧
    (stBOf ops rms s0).1.winTrace = (attackStOf ops rms s0).winTrace ∧
    (stBOf ops rms s0).1.bodiesOn = (attackStOf ops rms s0).bodiesOn ∧
    (stBOf ops rms s0).1.brokeOn = (attackStOf ops rms s0).brokeOn := by
  unfold stBOf
  refine ⟨?_, ?_, ?_, ?_, ?_⟩
  · rw [apply_ite Prod.fst, apply_ite MeasState.sound_min]
    dsimp only
    rw [ite_self]
  · rw [apply_ite Prod.fst, apply_ite MeasState.sound_max]
    dsimp only
    rw [ite_self]
  · rw [apply_ite Prod.fst, apply_ite MeasState.winTrace]
    dsimp only
    rw [ite_self]
  · rw [apply_ite Prod.fst, apply_ite MeasState.bodiesOn]
    dsimp only
    rw [ite_self]
  · rw [apply_ite Prod.fst, apply_ite MeasState.brokeOn]
    dsimp only
    rw [ite_self]

theorem attackLoop_count {σ : Type} (ops : SynthOps σ) (rms : List ℤ → ℚ) :
    ∀ (fuel period : ℕ) (st : MeasState σ),
      st.bodiesOn = st.windows_passed_on → st.brokeOn = false →
      (attackLoop ops rms period fuel st).bodiesOn =
        (attackLoop ops rms period fuel st).windows_passed_on +
          (attackLoop ops rms period fuel st).brokeOn.toNat := by
  intro fuel
  induction fuel with
  | zero =>
    intro period st hb hbr
    show st.bodiesOn = st.windows_passed_on + st.brokeOn.toNat
    rw [hb, hbr]
    rfl
  | succ fuel ih =>
    intro period st hb hbr
    rw [attackLoop_succ]
    dsimp only
    obtain ⟨h1, h2, h3, -, -, -⟩ := attackBody_proj ops rms period st
    split
    · show (attackBody ops rms period st).1.bodiesOn =
        (attackBody ops rms period st).1.windows_passed_on + Bool.toNat true
      rw [h1, h2, hb]
      rfl
    · refine ih (period + 1) _ ?_ ?_
      · show (attackBody ops rms period st).1.bodiesOn =
          (attackBody ops rms period st).1.windows_passed_on + 1
        rw [h1, h2, hb]
      · show (attackBody ops rms period st).1.brokeOn = false
        rw [h3, hbr]

theorem attackLoop_peak_lt {σ : Type} (ops : SynthOps σ) (rms : List ℤ → ℚ) :
    ∀ (fuel period : ℕ) (st : MeasState σ), period + fuel ≤ 6000 →
      st.peak_amplitude_time < 6000 →
      (attackLoop ops rms period fuel st).peak_amplitude_time < 6000 := by
  intro fuel
  induction fuel with
  | zero => intro period st _ hp; exact hp
  | succ fuel ih =>
    intro period st hle hp
    rw [attackLoop_succ]
    dsimp only
    split
    · show (attackBody ops rms period st).1.peak_amplitude_time < 6000
      exact attackBody_peak_lt ops rms period st (by omega) hp
    · refine ih (period + 1) _ (by omega) ?_
      show (attackBody ops rms period st).1.peak_amplitude_time < 6000
      exact attackBody_peak_lt ops rms period st (by omega) hp

theorem histSize_bounds (l : List ℤ) (h : 331 ≤ l.length) :
    331 ≤ histSize l ∧ histSize l ≤ 4972 := by
  unfold histSize histCap
  exact ⟨le_min h (by norm_num), min_le_right _ _⟩

theorem attackLoop_trace {σ : Type} (ops : SynthOps σ) (rms : List ℤ → ℚ) :
    ∀ (fuel period : ℕ) (st : MeasState σ),
      (∀ w ∈ st.winTrace, 331 ≤ w ∧ w ≤ 4972) →
      ∀ w ∈ (attackLoop ops rms period fuel st).winTrace, 331 ≤ w ∧ w ≤ 4972 := by
  intro fuel
  induction fuel with
  | zero => intro period st h; exact h
  | succ fuel ih =>
    intro period st h
    obtain ⟨-, -, -, h4, -, -⟩ := attackBody_proj ops rms period st
    have hstep : ∀ w ∈ (attackBody ops rms period st).1.winTrace, 331 ≤ w ∧ w ≤ 4972 := by
      intro w hw
      rw [h4] at hw
      rcases List.mem_append.1 hw with hw | hw
      · exact h w hw
      · rcases List.mem_singleton.1 hw with rfl
        refine histSize_bounds _ ?_
        rw [List.length_append, genSamples_len]
        omega
    rw [attackLoop_succ]
    dsimp only
    split
    · exact hstep
    · exact ih (period + 1) _ hstep

theorem releaseLoop_trace {σ : Type} (ops : SynthOps σ) (rms : List ℤ → ℚ) :
    ∀ (fuel period : ℕ) (st : MeasState σ),
      (∀ w ∈ st.winTrace, 331 ≤ w ∧ w ≤ 4972) →
      ∀ w ∈ (releaseLoop ops rms period fuel st).winTrace, 331 ≤ w ∧ w ≤ 4972 := by
  intro fuel
  induction fuel with
  | zero => intro period st h; exact h
  | succ fuel ih =>
    intro period st h
    obtain ⟨h4, -, -⟩ := releaseBody_proj ops rms period st
    have hstep : ∀ w ∈ (releaseBody ops rms period st).1.winTrace, 331 ≤ w ∧ w ≤ 4972 := by
      intro w hw
      rw [h4] at hw
      rcases List.mem_append.1 hw with hw | hw
      · exact h w hw
      · rcases List.mem_singleton.1 hw with rfl
        refine histSize_bounds _ ?_
        rw [List.length_append, genSamples_len]
        omega
    rw [releaseLoop_succ]
    dsimp only
    split
    · exact hstep
    · split
      · exact hstep
      · exact ih (period + 1) _ hstep

theorem foldl_min_lb (b : ℤ) : ∀ (l : List ℤ) (a : ℤ), b ≤ a → (∀ x ∈ l, b ≤ x) →
    b ≤ l.foldl min a := by
  intro l
  induction l with
  | nil => intro a ha _; exact ha
  | cons x xs ih =>
    intro a ha hl
    rw [List.foldl_cons]
    exact ih (min a x) (le_min ha (hl x (List.mem_cons_self x xs)))
      (fun y hy => hl y (List.mem_cons_of_mem x hy))

theorem foldl_max_ub (b : ℤ) : ∀ (l : List ℤ) (a : ℤ), a ≤ b → (∀ x ∈ l, x ≤ b) →
    l.foldl max a ≤ b := by
  intro l
  induction l with
  | nil => intro a ha _; exact ha
  | cons x xs ih =>
    intro a ha hl
    rw [List.foldl_cons]
    exact ih (max a x) (max_le ha (hl x (List.mem_cons_self x xs)))
      (fun y hy => hl y (List.mem_cons_of_mem x hy))

theorem stream_samples_bounded (f : ℕ → ℤ) (hf : ∀ n, -1 ≤ f n ∧ f n ≤ 1) (n m : ℕ) :
    ∀ x ∈ (genSamples (streamOps f) n m).2, -1 ≤ x ∧ x ≤ 1 := by
  intro x hx
  rw [genSamples_stream] at hx
  rcases List.mem_map.1 hx with ⟨i, -, rfl⟩
  exact hf i

theorem attackLoop_sound (f : ℕ → ℤ) (hf : ∀ n, -1 ≤ f n ∧ f n ≤ 1) (rms : List ℤ → ℚ) :
    ∀ (fuel period : ℕ) (st : MeasState ℕ), -1 ≤ st.sound_min → st.sound_max ≤ 1 →
      -1 ≤ (attackLoop (streamOps f) rms period fuel st).sound_min ∧
      (attackLoop (streamOps f) rms period fuel st).sound_max ≤ 1 := by
  intro fuel
  induction fuel with
  | zero => intro period st h1 h2; exact ⟨h1, h2⟩
  | succ fuel ih =>
    intro period st h1 h2
    obtain ⟨-, -, -, -, h5, h6⟩ := attackBody_proj (streamOps f) rms period st
    have hmn : -1 ≤ (attackBody (streamOps f) rms period st).1.sound_min := by
      rw [h5]
      exact foldl_min_lb _ _ _ h1 (fun x hx => (stream_samples_bounded f hf _ _ x hx).1)
    have hmx : (attackBody (streamOps f) rms period st).1.sound_max ≤ 1 := by
      rw [h6]
      exact foldl_max_ub _ _ _ h2 (fun x hx => (stream_samples_bounded f hf _ _ x hx).2)
    rw [attackLoop_succ]
    dsimp only
    split
    · exact ⟨hmn, hmx⟩
    · exact ih (period + 1) _ hmn hmx

theorem releaseLoop_sound (f : ℕ → ℤ) (hf : ∀ n, -1 ≤ f n ∧ f n ≤ 1) (rms : List ℤ → ℚ) :
    ∀ (fuel period : ℕ) (st : MeasState ℕ), -1 ≤ st.sound_min → st.sound_max ≤ 1 →
      -1 ≤ (releaseLoop (streamOps f) rms period fuel st).sound_min ∧
      (releaseLoop (streamOps f) rms period fuel st).sound_max ≤ 1 := by
  intro fuel
  induction fuel with
  | zero => intro period st h1 h2; exact ⟨h1, h2⟩
  | succ fuel ih =>
    intro period st h1 h2
    obtain ⟨-, h5, h6⟩ := releaseBody_proj (streamOps f) rms period st
    have hmn : -1 ≤ (releaseBody (streamOps f) rms period st).1.sound_min := by
      rw [h5]
      exact foldl_min_lb _ _ _ h1 (fun x hx => (stream_samples_bounded f hf _ _ x hx).1)
    have hmx : (releaseBody (streamOps f) rms period st).1.sound_max ≤ 1 := by
      rw [h6]
      exact foldl_max_ub _ _ _ h2 (fun x hx => (stream_samples_bounded f hf _ _ x hx).2)
    rw [releaseLoop_succ]
    dsimp only
    split
    · exact ⟨hmn, hmx⟩
    · split
      · exact ⟨hmn, hmx⟩
      · exact ih (period + 1) _ hmn hmx

theorem releaseStOf_sound (f : ℕ → ℤ) (hf : ∀ n, -1 ≤ f n ∧ f n ≤ 1)
    (rms : List ℤ → ℚ) (s0 : ℕ) :
    -1 ≤ (releaseStOf (streamOps f) rms s0).sound_min ∧
    (releaseStOf (streamOps f) rms s0).sound_max ≤ 1 := by
  have hA : -1 ≤ (attackStOf (streamOps f) rms s0).sound_min ∧
      (attackStOf (streamOps f) rms s0).sound_max ≤ 1 := by
    unfold attackStOf
    exact attackLoop_sound f hf rms 6000 0 _ (by norm_num [initState]) (by norm_num [initState])
  unfold releaseStOf
  refine releaseLoop_sound f hf rms 9000 0 _ ?_ ?_
  · rw [(stBOf_proj (streamOps f) rms s0).1]
    exact hA.1
  · rw [(stBOf_proj (streamOps f) rms s0).2.1]
    exact hA.2

/-! ## The claims -/

/-- C1: the silence classification. The returned nosound flag is the
disjunction of (release-phase peak windowed RMS < 1/2) and (the global
sample range within the variant's silence epsilon): [-1, 1] for the legacy
variant, [-19, 18] for the indexed variant.  Consequently a stream whose
samples all stay within [-1, 1] is classified nosound = true by both
variants; but the claim's converse direction — peak RMS ≥ 0.5 with sample
excursions beyond ±1 gives nosound = false — fails for the indexed variant,
whose epsilon is not ±1 (see the counterexample). -/
theorem nosound_bounded_stream (f : ℕ → ℤ) (rms : List ℤ → ℚ) (s0 : ℕ)
    (hf : ∀ n, -1 ≤ f n ∧ f n ≤ 1) :
    (measureDurationsLegacy (streamOps f) rms s0).result.nosound = true ∧
    (measureDurationsIndexed (streamOps f) rms s0).result.nosound = true := by
  obtain ⟨h1, h2⟩ := releaseStOf_sound f hf rms s0
  constructor
  · unfold measureDurationsLegacy
    simp only [measure_nosound]
    simp only [decide_eq_true h1, decide_eq_true h2]
    simp
  · unfold measureDurationsIndexed
    simp only [measure_nosound]
    simp only [decide_eq_true (le_trans (by norm_num : (-19 : ℤ) ≤ -1) h1),
      decide_eq_true (le_trans h2 (by norm_num : (1 : ℤ) ≤ 18))]
    simp

/-- Witness for C1 at the constant-1 stream. -/
theorem nosound_bounded_stream_witness :
    (∀ n : ℕ, -1 ≤ (1 : ℤ) ∧ (1 : ℤ) ≤ 1) ∧
    (measureDurationsLegacy (streamOps fun _ => 1) (fun _ => 353 / 1000) 0).result.nosound
      = true ∧
    (measureDurationsIndexed (streamOps fun _ => 1) (fun _ => 353 / 1000) 0).result.nosound
      = true := by
  have hf : ∀ n : ℕ, -1 ≤ (fun _ : ℕ => (1 : ℤ)) n ∧ (fun _ : ℕ => (1 : ℤ)) n ≤ 1 :=
    fun _ => by norm_num
  obtain ⟨hl, hi⟩ := nosound_bounded_stream (fun _ => 1) (fun _ => 353 / 1000) 0 hf
  exact ⟨hf, hl, hi⟩

/-- C1 counterexample: the constant-10 stream on the indexed variant has a
release-phase peak RMS of 1 ≥ 0.5 and a global sample maximum of 10, far
beyond amplitude 1, yet is classified nosound = true, because the indexed
variant's silence epsilon is the sample range [-19, 18], not [-1, 1]. -/
theorem nosound_misclassifies_loud_instrument :
    (1 / 2 : ℚ) ≤ runConstTen.releaseSt.peak_amplitude_value ∧
    1 < runConstTen.releaseSt.sound_max ∧
    runConstTen.result.nosound = true := by
  have h := runConstTen_eq
  refine ⟨?_, ?_, ?_⟩
  · rw [h]
    norm_num [stateTenR, stateTen]
  · rw [h]
    norm_num [stateTenR, stateTen]
  · rw [h]

/-- C2: determinism of the envelope analyzer.  The run is a pure function
of the instrument programming and the reset chip state: two runs whose
fresh (reset) chip states agree produce equal MeasRun records, hence
bit-identical DurationInfo results in every field. -/
theorem measure_deterministic {σ : Type} (ops : SynthOps σ) (rms : List ℤ → ℚ)
    (epsLo epsHi : ℤ) (s0 s0' : σ) (h : ops.resetChip s0 = ops.resetChip s0') :
    measureDurations ops rms epsLo epsHi s0 = measureDurations ops rms epsLo epsHi s0' := by
  have hA : attackStOf ops rms s0 = attackStOf ops rms s0' := by
    unfold attackStOf
    rw [h]
  have hB : replayOf ops rms s0 = replayOf ops rms s0' := by
    unfold replayOf
    rw [hA]
  have hS : stBOf ops rms s0 = stBOf ops rms s0' := by
    unfold stBOf
    rw [hA, hB]
  have hQ : quarterOf ops rms s0 = quarterOf ops rms s0' := by
    unfold quarterOf
    rw [hA]
  have hR : releaseStOf ops rms s0 = releaseStOf ops rms s0' := by
    unfold releaseStOf
    rw [hS]
  rw [measureDurations_eq, measureDurations_eq, hA, hS, hQ, hR]

/-- Witness for C2: two distinct start states of the deterministic stream
chip reset to the same state, so the runs coincide. -/
theorem measure_deterministic_witness :
    (streamOps fun _ => (0 : ℤ)).resetChip 3 = (streamOps fun _ => (0 : ℤ)).resetChip 7 ∧
    measureDurations (streamOps fun _ => 0) (fun _ => 0) (-1) 1 3 =
      measureDurations (streamOps fun _ => 0) (fun _ => 0) (-1) 1 7 :=
  ⟨rfl, measure_deterministic (streamOps fun _ => 0) (fun _ => 0) (-1) 1 3 7 rfl⟩

/-- C8: the replay policy.  When the attack loop exhausted its 6000
periods, note-off is issued immediately from the current chip state and no
replay periods run; otherwise the chip is reset, reprogrammed and the
attack replayed from period 0 for max 1 peakTime periods (so at least one
period runs even when the peak time is 0) before note-off. -/
theorem measure_replay_policy {σ : Type} (ops : SynthOps σ) (rms : List ℤ → ℚ)
    (epsLo epsHi : ℤ) (s0 : σ) :
    (6000 ≤ (measureDurations ops rms epsLo epsHi s0).attackSt.windows_passed_on →
      (measureDurations ops rms epsLo epsHi s0).replayCount = 0 ∧
      (measureDurations ops rms epsLo epsHi s0).releaseStart =
        { (measureDurations ops rms epsLo epsHi s0).attackSt with
          chip := ops.noteOff (measureDurations ops rms epsLo epsHi s0).attackSt.chip }) ∧
    ((measureDurations ops rms epsLo epsHi s0).attackSt.windows_passed_on < 6000 →
      (measureDurations ops rms epsLo epsHi s0).replayCount =
        max 1 (measureDurations ops rms epsLo epsHi s0).attackSt.peak_amplitude_time ∧
      1 ≤ (measureDurations ops rms epsLo epsHi s0).replayCount ∧
      (measureDurations ops rms epsLo epsHi s0).releaseStart.chip =
        ops.noteOff (replayOf ops rms s0).1 ∧
      (measureDurations ops rms epsLo epsHi s0).releaseStart.hist =
        (replayOf ops rms s0).2.1) := by
  rw [measure_attackSt, measure_replayCount, measure_releaseStart]
  constructor
  · intro h6000
    unfold stBOf
    rw [if_pos h6000]
    exact ⟨rfl, rfl⟩
  · intro hlt
    have hsnd : (stBOf ops rms s0).2 = (replayOf ops rms s0).2.2 := by
      unfold stBOf
      rw [apply_ite Prod.snd]
      dsimp only
      rw [if_neg (by omega : ¬(6000 ≤ (attackStOf ops rms s0).windows_passed_on))]
    have hrep : (replayOf ops rms s0).2.2 =
        max 1 (attackStOf ops rms s0).peak_amplitude_time := by
      unfold replayOf
      have hpk : (attackStOf ops rms s0).peak_amplitude_time < 6000 := by
        unfold attackStOf
        exact attackLoop_peak_lt ops rms 6000 0 _ (by norm_num) (by norm_num [initState])
      by_cases hz : (attackStOf ops rms s0).peak_amplitude_time = 0
      · rw [hz]
        all_goals rw [show (6000 : ℕ) = 5999 + 1 from rfl, replayLoop_zero]
        all_goals rfl
      · rw [replayLoop_count ops _ (by omega) 6000 0 _ _ _ (by omega) (by omega)]
        rw [Nat.max_eq_right (by omega : 1 ≤ (attackStOf ops rms s0).peak_amplitude_time)]
        all_goals omega
    have hcount : (stBOf ops rms s0).2 =
        max 1 (attackStOf ops rms s0).peak_amplitude_time := hsnd.trans hrep
    refine ⟨hcount, ?_, ?_, ?_⟩
    · rw [hcount]
      exact le_max_left 1 _
    · unfold stBOf
      rw [if_neg (by omega : ¬(6000 ≤ (attackStOf ops rms s0).windows_passed_on))]
    · unfold stBOf
      rw [if_neg (by omega : ¬(6000 ≤ (attackStOf ops rms s0).windows_passed_on))]

/-- Witness for C8: the constant-10 run takes the exhausted branch with no
replay, the constant-1 run takes the replay branch and replays
max 1 0 = 1 period. -/
theorem measure_replay_policy_witness :
    6000 ≤ runConstTen.attackSt.windows_passed_on ∧ runConstTen.replayCount = 0 ∧
    runConstOne.attackSt.windows_passed_on < 6000 ∧
    runConstOne.replayCount = max 1 runConstOne.attackSt.peak_amplitude_time := by
  have hTen := measure_replay_policy (streamOps fun _ => (10 : ℤ)) (fun _ => 1) (-19) 18 0
  have hOne := measure_replay_policy (streamOps fun _ => (1 : ℤ)) (fun _ => 353 / 1000)
    (-1) 1 0
  have h6 : 6000 ≤ runConstTen.attackSt.windows_passed_on := by
    rw [runConstTen_eq]
    norm_num [stateTen]
  have h9 : runConstOne.attackSt.windows_passed_on < 6000 := by
    rw [runConstOne_attack]
    norm_num [stateOneBroke, stateOne]
  exact ⟨h6, (hTen.1 h6).1, h9, (hOne.2 h9).1⟩

/-- C9: the settle-time default (amended).  When the attack loop ends
without the quarter-amplitude time having been found, the settle time is
set to windows_passed_on — the number of completed periods.  This equals
the number of attack periods actually executed only when the loop
exhausted its budget: on an early break the final period's body has run
but the for-update was skipped, so one more period was executed than
counted (bodiesOn = windows_passed_on + 1; see the counterexample). -/
theorem quarter_default_on_unfound {σ : Type} (ops : SynthOps σ) (rms : List ℤ → ℚ)
    (epsLo epsHi : ℤ) (s0 : σ) :
    ((measureDurations ops rms epsLo epsHi s0).attackSt.quarter_found = false →
      (measureDurations ops rms epsLo epsHi s0).quarter =
        (measureDurations ops rms epsLo epsHi s0).attackSt.windows_passed_on) ∧
    (measureDurations ops rms epsLo epsHi s0).attackSt.bodiesOn =
      (measureDurations ops rms epsLo epsHi s0).attackSt.windows_passed_on +
        (measureDurations ops rms epsLo epsHi s0).attackSt.brokeOn.toNat := by
  rw [measure_attackSt, measure_quarter]
  constructor
  · intro h
    unfold quarterOf
    rw [if_neg (by simp [h] : ¬((attackStOf ops rms s0).quarter_found = true))]
  · unfold attackStOf
    exact attackLoop_count ops rms 6000 0 _ (by norm_num [initState]) (by norm_num [initState])

/-- Witness for C9 at the constant-10 run (no break, quarter never found,
settle time = windows_passed_on). -/
theorem quarter_default_on_unfound_witness :
    runConstTen.attackSt.quarter_found = false ∧
    runConstTen.quarter = runConstTen.attackSt.windows_passed_on := by
  have h := quarter_default_on_unfound (streamOps fun _ => (10 : ℤ)) (fun _ => 1) (-19) 18 0
  have hq : runConstTen.attackSt.quarter_found = false := by
    rw [runConstTen_eq]
    rfl
  exact ⟨hq, h.1 hq⟩

/-- C9 counterexample: in the constant-1 run the attack loop breaks at
period 901 without finding a quarter time, after executing 902 period
bodies; the settle time is set to 901, not to the 902 periods actually
executed. -/
theorem quarter_not_total_periods :
    runConstOne.attackSt.quarter_found = false ∧
    runConstOne.attackSt.bodiesOn = 902 ∧
    runConstOne.quarter = 901 := by
  refine ⟨?_, ?_, runConstOne_quarter⟩
  · rw [runConstOne_attack]
    rfl
  · rw [runConstOne_attack]
    rfl

/-- C10: window sizes are bounded (amended).  Every window length ever
recorded during a run — attack and release phases both, the release trace
extending the attack trace — lies in [331, 4972]: at least one full
analysis period of samples is in the history before each RMS window is
taken, and the history is capped at 4972 samples.  In particular no window
length is 0 or 1, so the divisors n - 1 of HannWindow and length - 1 of
MeasureRMS are nonzero.  The window length is however not always a
multiple of 331 as claimed: the cap 4972 is not one (see the
counterexample). -/
theorem window_sizes_bounded {σ : Type} (ops : SynthOps σ) (rms : List ℤ → ℚ)
    (epsLo epsHi : ℤ) (s0 : σ) :
    ∀ w ∈ (measureDurations ops rms epsLo epsHi s0).releaseSt.winTrace,
      331 ≤ w ∧ w ≤ 4972 ∧ ((w : ℚ) - 1 ≠ 0) := by
  rw [measure_releaseSt]
  intro w hw
  have hb : ∀ w ∈ (releaseStOf ops rms s0).winTrace, 331 ≤ w ∧ w ≤ 4972 := by
    unfold releaseStOf
    refine releaseLoop_trace ops rms 9000 0 _ ?_
    rw [(stBOf_proj ops rms s0).2.2.1]
    unfold attackStOf
    refine attackLoop_trace ops rms 6000 0 _ ?_
    intro w hw'
    simp [initState] at hw'
  obtain ⟨h1, h2⟩ := hb w hw
  refine ⟨h1, h2, ?_⟩
  intro hc
  have hw1 : (w : ℚ) = 1 := by linarith
  have : w = 1 := by exact_mod_cast hw1
  omega

/-- Witness for C10: the very first attack window of the constant-10 run
has length 331, within the bounds. -/
theorem window_sizes_bounded_witness :
    (331 : ℕ) ∈ runConstTen.releaseSt.winTrace ∧
    (331 ≤ 331 ∧ 331 ≤ 4972 ∧ (((331 : ℕ) : ℚ) - 1 ≠ 0)) := by
  have hmem : (331 : ℕ) ∈ runConstTen.releaseSt.winTrace := by
    rw [runConstTen_eq]
    show (331 : ℕ) ∈ ((List.range 6000).map fun i => min (331 * (i + 1)) 4972) ++
      List.replicate 9000 4972
    exact List.mem_append_left _
      (List.mem_map.2 ⟨0, List.mem_range.2 (by norm_num), by norm_num⟩)
  exact ⟨hmem,
    window_sizes_bounded (streamOps fun _ => (10 : ℤ)) (fun _ => 1) (-19) 18 0 331 hmem⟩

/-- C10 counterexample: once the 4972-sample history cap is reached
(window 16 of the attack phase, since 331 * 16 > 4972), the recorded
window length is the cap 4972, which is not a multiple of the
331-sample analysis period. -/
theorem window_size_not_period_multiple :
    (4972 : ℕ) ∈ runConstTen.attackSt.winTrace ∧ ¬(331 ∣ 4972) := by
  constructor
  · rw [runConstTen_eq]
    show (4972 : ℕ) ∈ (List.range 6000).map fun i => min (331 * (i + 1)) 4972
    exact List.mem_map.2 ⟨15, List.mem_range.2 (by norm_num), by norm_num⟩
  · decide
